import Mathlib

/-!
Verification of the Ipsumify markdown generator and its markdown-to-HTML
converter.  The definitions below are a shallow embedding of the script in
`index.html`: JavaScript strings are modelled as `List Char`, the ambient
`Math.random()` source as a stream `ℕ → ℚ` of draws (each in `[0, 1)` for a
genuine random source), threaded through the computation by an index.  The
two `while` loops of the generator (unique-word collection for headings and
rejection sampling of subheading positions) can fail to terminate, so they
take fuel and return `Option`.
-/

set_option maxRecDepth 8000

/- The core rational-number operations are `@[irreducible]` by default,
which prevents `decide` from evaluating concrete runs of the generator;
restore the ordinary reducibility for this file. -/
attribute [local semireducible] Rat.mul Rat.add Rat.sub Rat.inv

namespace Ipsumify

/-- JS strings are modelled as lists of characters. -/
abbrev Str := List Char

/-- View a Lean string literal as a modelled JS string. -/
def str (s : String) : Str := s.data

/-- A random source: the successive values produced by `Math.random()`.
A real source always draws from `[0, 1)`. -/
def goodStream (r : ℕ → ℚ) : Prop := ∀ i, 0 ≤ r i ∧ r i < 1

/-- `Math.floor(Math.random() * n)`: index of a uniform draw into a
collection of size `n`, using the `k`-th value of the stream. -/
def randIdx (r : ℕ → ℚ) (k n : ℕ) : ℕ := (Rat.floor (r k * (n : ℚ))).toNat

/-- `getRandomInt(lo, hi) = Math.floor(Math.random() * (hi - lo + 1)) + lo`. -/
def randInt (r : ℕ → ℚ) (k lo hi : ℕ) : ℕ :=
  (Rat.floor (r k * ((hi - lo + 1 : ℕ) : ℚ))).toNat + lo

/-- The configuration object of the generator (the React `options` state). -/
structure Options where
  noHeaders : Bool
  noCodeSnippets : Bool
  noInlineMarkup : Bool
  noBlockquotes : Bool
  noLists : Bool
  noExternalLinks : Bool
  noWrapping : Bool
  capitalizeSentences : Bool
  underlinedHeaders : Bool
  referenceLinks : Bool
  emStyle : Bool
  strongStyle : Bool
  codeBlocks : Bool
  numBlocks : ℕ

/-- The body word list (`words` local to `generateParagraph`), 46 entries. -/
def bodyWords : List Str :=
  [str "Lorem", str "ipsum", str "dolor", str "sit", str "amet",
   str "consectetur", str "adipiscing", str "elit", str "caligine",
   str "fassaque", str "portitor", str "fine", str "summo", str "bis",
   str "est", str "orbus",
   str "aether", str "bellum", str "carmen", str "deus", str "enim",
   str "fatum", str "gloria", str "homo", str "idem", str "jugum",
   str "lumen", str "mare", str "nox", str "opus", str "pax", str "quam",
   str "rex", str "sol", str "tempus", str "umbra", str "vita", str "vox",
   str "terra", str "sanctum", str "virtus", str "manus", str "caelum",
   str "anima", str "stella", str "ventus"]

/-- The heading word list (`latinWords`), 53 capitalized entries. -/
def latinWords : List Str :=
  [str "Aether", str "Bellum", str "Carmen", str "Deus", str "Enim",
   str "Fatum", str "Gloria", str "Homo", str "Idem", str "Jugum",
   str "Lumen", str "Mare", str "Nox", str "Opus", str "Pax", str "Quam",
   str "Rex", str "Sol", str "Tempus", str "Umbra", str "Vita", str "Vox",
   str "Terra", str "Sanctum", str "Virtus", str "Manus", str "Caelum",
   str "Anima", str "Stella", str "Ventus", str "Magnus", str "Patria",
   str "Fortis", str "Sapiens", str "Veritas", str "Natura", str "Vis",
   str "Lex", str "Fides", str "Amor", str "Mors", str "Pater", str "Mater",
   str "Filius", str "Roma", str "Diem", str "Numen", str "Corpus",
   str "Annus", str "Ignis", str "Aqua", str "Arbor", str "Mons"]

/-- Indexing `list[i]` for a word list (in-range for a genuine random draw). -/
def getWord (l : List Str) (i : ℕ) : Str := l.getD i []

/-- One entry of the `codeExamples` fixture. -/
structure CodeExample where
  lang : Str
  code : Str

/-- The four fixed code examples. -/
def codeExamples : List CodeExample :=
  [⟨str "javascript",
    str "function processData(input) \x7b\n  return input.map(x => x * 2)\n    .filter(x => x > 10);\n\x7d"⟩,
   ⟨str "bash",
    str "#!/bin/bash\nfor i in \x7b1..5\x7d\ndo\n  echo \"Processing $i...\"\n  sleep 1\ndone"⟩,
   ⟨str "python",
    str "def fibonacci(n):\n    if n <= 1:\n        return n\n    return fibonacci(n-1) + fibonacci(n-2)"⟩,
   ⟨str "sql",
    str "SELECT category, COUNT(*) as total\nFROM products\nGROUP BY category\nHAVING total > 100;"⟩]

/-- `String.prototype.split(" ")`: split on every single space, keeping
empty tokens (always returns at least one token). -/
def splitOnSpace : Str → List Str
  | [] => [[]]
  | c :: rest =>
    if c = ' ' then [] :: splitOnSpace rest
    else
      match splitOnSpace rest with
      | t :: ts => (c :: t) :: ts
      | [] => [[c]]

/-- `Array.prototype.join(" ")`. -/
def joinSpace : List Str → Str
  | [] => []
  | [t] => t
  | t :: ts => t ++ ' ' :: joinSpace ts

/-- `String.prototype.trim()`: strip leading and trailing whitespace. -/
def jsTrim (s : Str) : Str :=
  ((s.dropWhile Char.isWhitespace).reverse.dropWhile Char.isWhitespace).reverse

/-- `s.charAt(0).toUpperCase() + s.slice(1)`. -/
def upFirst : Str → Str
  | [] => []
  | c :: cs => c.toUpper :: cs

/-- The inner word loop of a sentence: `sentence += getRandomWord() + " "`
repeated `n` times.  Returns the accumulated text and the next draw index. -/
def genSentenceWords (r : ℕ → ℚ) : ℕ → ℕ → Str × ℕ
  | 0, k => ([], k)
  | n + 1, k =>
    let w := getWord bodyWords (randIdx r k 46)
    let (rest, k') := genSentenceWords r n (k + 1)
    (w ++ ' ' :: rest, k')

/-- The sentence loop of `generateParagraph`: `n` sentences, each with a
random word count in `[8, 15]`, trimmed, suffixed by `". "`, and optionally
capitalized. -/
def genSentences (opts : Options) (r : ℕ → ℚ) : ℕ → ℕ → Str × ℕ
  | 0, k => ([], k)
  | n + 1, k =>
    let len := randInt r k 8 15
    let (ws, k') := genSentenceWords r len (k + 1)
    let s := jsTrim ws ++ str ". "
    let s := if opts.capitalizeSentences = true then upFirst s else s
    let (rest, k'') := genSentences opts r n k'
    (s ++ rest, k'')

/-- The emphasis pass body: for each token a fresh draw; with probability
0.1 wrap it, `_token_` if `emStyle` (checked first), else `__token__` if
`strongStyle`. -/
def styleTokens (opts : Options) (r : ℕ → ℚ) : ℕ → List Str → List Str × ℕ
  | k, [] => ([], k)
  | k, t :: ts =>
    let t' := if r k < 1 / 10 then
        (if opts.emStyle = true then '_' :: t ++ ['_']
         else if opts.strongStyle = true then '_' :: '_' :: t ++ ['_', '_']
         else t)
      else t
    let (ts', k') := styleTokens opts r (k + 1) ts
    (t' :: ts', k')

/-- `generateParagraph`: a random sentence count in `[4, 15]`, the sentence
loop, then (only when `emStyle` or `strongStyle`) the split/style/join
emphasis pass. -/
def generateParagraph (opts : Options) (r : ℕ → ℚ) (k : ℕ) : Str × ℕ :=
  let n := randInt r k 4 15
  let (p, k') := genSentences opts r n (k + 1)
  if opts.emStyle = true ∨ opts.strongStyle = true then
    let toks := splitOnSpace p
    let (toks', k'') := styleTokens opts r k' toks
    (joinSpace toks', k'')
  else (p, k')

/-- Decimal rendering of a JS number, as produced by template literals. -/
def numStr (n : ℕ) : Str :=
  if h : n < 10 then [Char.ofNat (48 + n)]
  else numStr (n / 10) ++ [Char.ofNat (48 + n % 10)]
decreasing_by exact Nat.div_lt_self (by omega) (by omega)

/-- The unique-word collection loop of `generateRandomHeading`: draw a
heading word each iteration, push it unless already present, until `target`
words are collected.  May loop forever, hence the fuel. -/
def headingLoop (target : ℕ) (r : ℕ → ℚ) : List Str → ℕ → ℕ → Option (List Str × ℕ)
  | acc, k, 0 => if acc.length < target then none else some (acc, k)
  | acc, k, fuel + 1 =>
    if acc.length < target then
      let w := getWord latinWords (randIdx r k 53)
      let acc' := if w ∈ acc then acc else acc ++ [w]
      headingLoop target r acc' (k + 1) fuel
    else some (acc, k)

/-- `generateRandomHeading`: a random length in `[4, 10]`, then the
unique-word loop, joined with spaces. -/
def generateRandomHeading (r : ℕ → ℚ) (k fuel : ℕ) : Option (Str × ℕ) :=
  let len := (Rat.floor (r k * 7)).toNat + 4
  (headingLoop len r [] (k + 1) fuel).map fun p => (joinSpace p.1, p.2)

/-- `generateHeading(level)`: Setext style (underline `=` for level 1,
otherwise `-`) when `underlinedHeaders`, else ATX `#`-prefix style. -/
def generateHeading (opts : Options) (level : ℕ) (r : ℕ → ℚ) (k fuel : ℕ) :
    Option (Str × ℕ) :=
  (generateRandomHeading r k fuel).map fun p =>
    (if opts.underlinedHeaders = true then
      p.1 ++ '\n' :: List.replicate p.1.length (if level = 1 then '=' else '-')
        ++ str "\n\n"
     else List.replicate level '#' ++ ' ' :: p.1 ++ str "\n\n", p.2)

/-- `generateCodeBlock`: pick one of the four examples; a fenced block with
language tag when `codeBlocks`, otherwise the first source line as inline
code. -/
def generateCodeBlock (opts : Options) (r : ℕ → ℚ) (k : ℕ) : Str × ℕ :=
  let ex := codeExamples.getD (randIdx r k 4) ⟨[], []⟩
  (if opts.codeBlocks = true then
     str "```" ++ ex.lang ++ '\n' :: ex.code ++ str "\n```\n\n"
   else '`' :: ex.code.takeWhile (· ≠ '\n') ++ str "`\n\n", k + 1)

/-- The fixed three-item bullet list emitted when `!noLists && i % 4 == 1`. -/
def listLiteral : Str :=
  str "* Sanguine mendaci in supplex vertitur moenia\n* Quae nec frondes linguae\n* Hoc adalah medendi tamen\n\n"

/-- The reference-style link sentence plus its definition line for block `i`. -/
def refLinkText (i : ℕ) : Str :=
  str "See [reference link][" ++ numStr (i + 1) ++ str "] for more information.\n\n"
    ++ str "[" ++ numStr (i + 1) ++ str "]: https://example.com/ref" ++ numStr (i + 1) ++ str "\n"

/-- The inline-style link sentence for block `i`. -/
def inlineLinkText (i : ℕ) : Str :=
  str "See [inline link](https://example.com/page" ++ numStr (i + 1)
    ++ str ") for more information.\n\n"

/-- `numSubheadings = Math.max(3, Math.floor(numBlocks / 4))`. -/
def numSubheadings (opts : Options) : ℕ := max 3 (opts.numBlocks / 4)

/-- The rejection-sampling loop over subheading positions:
`while (headingPositions.size < target) add(Math.floor(Math.random() * numBlocks))`.
May loop forever, hence the fuel. -/
def sampleLoop (nb target : ℕ) (r : ℕ → ℚ) : Finset ℕ → ℕ → ℕ → Option (Finset ℕ × ℕ)
  | s, k, 0 => if s.card < target then none else some (s, k)
  | s, k, fuel + 1 =>
    if s.card < target then
      sampleLoop nb target r (insert (randIdx r k nb) s) (k + 1) fuel
    else some (s, k)

/-- The body of the per-block loop of `generateContent` for block `i`:
optional subheading, paragraph, optional list, code snippet and link. -/
def blockStep (opts : Options) (positions : Finset ℕ) (r : ℕ → ℚ) (fuel i : ℕ)
    (content : Str) (k : ℕ) : Option (Str × ℕ) := do
  let (content, k) ←
    if i ∈ positions ∧ opts.noHeaders = false then do
      let lvl := if r k < 3 / 10 then 3 else 2
      let (h, k') ← generateHeading opts lvl r (k + 1) fuel
      pure (content ++ h, k')
    else pure (content, k)
  let (p, k) := generateParagraph opts r k
  let content := content ++ p ++ str "\n\n"
  let content := if opts.noLists = false ∧ i % 4 = 1 then content ++ listLiteral else content
  let (content, k) :=
    if opts.noCodeSnippets = false ∧ i % 5 = 2 then
      let (cb, k') := generateCodeBlock opts r k
      (content ++ cb, k')
    else (content, k)
  let content :=
    if opts.referenceLinks = true ∧ opts.noExternalLinks = false ∧ i % 3 = 0 then
      content ++ refLinkText i
    else if opts.noExternalLinks = false ∧ i % 3 = 0 then
      content ++ inlineLinkText i
    else content
  pure (content, k)

/-- The per-block loop of `generateContent` over the listed block indices. -/
def blockLoop (opts : Options) (positions : Finset ℕ) (r : ℕ → ℚ) (fuel : ℕ) :
    List ℕ → Str → ℕ → Option (Str × ℕ)
  | [], content, k => some (content, k)
  | i :: is, content, k => do
    let (c, k') ← blockStep opts positions r fuel i content k
    blockLoop opts positions r fuel is c k'

/-- `generateContent`: optional main heading, subheading-position sampling,
then the per-block loop. -/
def generateContent (opts : Options) (r : ℕ → ℚ) (fuel : ℕ) : Option Str := do
  let (content, k) ←
    if opts.noHeaders = false then do
      let (h, k) ← generateRandomHeading r 0 fuel
      pure ((if opts.underlinedHeaders = true then
          h ++ '\n' :: List.replicate h.length '=' ++ str "\n\n"
        else str "# " ++ h ++ str "\n\n"), k)
    else pure (([] : Str), 0)
  let (positions, k) ← sampleLoop opts.numBlocks (numSubheadings opts) r ∅ k fuel
  let (content', _) ← blockLoop opts positions r fuel (List.range opts.numBlocks) content k
  pure content'

/-- Split a string into its lines (separator `'\n'`). -/
def splitLines : Str → List Str
  | [] => [[]]
  | c :: rest =>
    if c = '\n' then [] :: splitLines rest
    else
      match splitLines rest with
      | t :: ts => (c :: t) :: ts
      | [] => [[c]]

/-- A Setext underline line: non-empty and consisting only of `=` or only
of `-`. -/
def isUnderlineLine (l : Str) : Bool :=
  decide (l ≠ []) && (l.all (· = '=') || l.all (· = '-'))

/-- A Setext pattern: some non-empty text line immediately followed by an
underline line. -/
def hasSetextPattern (s : Str) : Bool :=
  (List.zip (splitLines s) (splitLines s).tail).any
    fun p => decide (p.1 ≠ []) && isUnderlineLine p.2

/-!
The markdown-to-HTML converter (`markdownToHtml`).  Each ordered regex
substitution of the source is realised as a recursive scan over the
character list, reproducing the JavaScript regex-engine behaviour: try a
match at the current position, emit the replacement and continue after the
match, otherwise emit one character and advance.
-/

/-- Lazy body of `**(.+?)**` and `__(.+?)__` after an opening double
delimiter: the shortest non-empty run of non-newline characters followed by
the closing double delimiter.  Returns the captured text and the remainder
after the closing delimiter. -/
def findLazyPair (d : Char) : Str → Option (Str × Str)
  | [] => none
  | c :: rest =>
    if c = '\n' then none
    else if rest.take 2 = [d, d] then some ([c], rest.drop 2)
    else
      match findLazyPair d rest with
      | some (t, r') => some (c :: t, r')
      | none => none

/-- Global replacement for a double-delimiter emphasis pattern
(`**(.+?)**` with `d = '*'`, `__(.+?)__` with `d = '_'`). -/
def doubleRep (d : Char) (openT closeT : Str) : Str → Str
  | [] => []
  | c :: rest =>
    if c = d ∧ rest.take 1 = [d] then
      match h : findLazyPair d (rest.drop 1) with
      | some (t, r') => openT ++ t ++ closeT ++ doubleRep d openT closeT r'
      | none => c :: doubleRep d openT closeT rest
    else c :: doubleRep d openT closeT rest
termination_by s => s.length
decreasing_by
· have key : ∀ (xs t r' : Str), findLazyPair d xs = some (t, r') → r'.length < xs.length := by
    intro xs
    induction xs with
    | nil => intro t r' hh; simp [findLazyPair] at hh
    | cons a as ih =>
      intro t r' hh
      simp only [findLazyPair] at hh
      split at hh
      · simp at hh
      · split at hh
        · simp only [Option.some.injEq, Prod.mk.injEq] at hh
          obtain ⟨-, h2⟩ := hh
          subst h2
          simp only [List.length_drop, List.length_cons]
          omega
        · split at hh
          · next t0 r0 heq =>
            simp only [Option.some.injEq, Prod.mk.injEq] at hh
            obtain ⟨-, h2⟩ := hh
            have h2' := congrArg List.length h2
            have := ih t0 r0 heq
            simp only [List.length_cons]
            omega
          · simp at hh
  have hk := key _ _ _ h
  simp only [List.length_drop, List.length_cons] at hk ⊢
  omega
· simp only [List.length_cons]; omega
· simp only [List.length_cons]; omega

/-- Lazy body of `_(.+?)_` after an opening single delimiter. -/
def findLazySingle (d : Char) : Str → Option (Str × Str)
  | [] => none
  | c :: rest =>
    if c = '\n' then none
    else if rest.take 1 = [d] then some ([c], rest.drop 1)
    else
      match findLazySingle d rest with
      | some (t, r') => some (c :: t, r')
      | none => none

/-- Global replacement for the single-delimiter emphasis pattern
(`_(.+?)_` with `d = '_'`). -/
def singleRep (d : Char) (openT closeT : Str) : Str → Str
  | [] => []
  | c :: rest =>
    if c = d then
      match h : findLazySingle d rest with
      | some (t, r') => openT ++ t ++ closeT ++ singleRep d openT closeT r'
      | none => c :: singleRep d openT closeT rest
    else c :: singleRep d openT closeT rest
termination_by s => s.length
decreasing_by
· have key : ∀ (xs t r' : Str), findLazySingle d xs = some (t, r') → r'.length < xs.length := by
    intro xs
    induction xs with
    | nil => intro t r' hh; simp [findLazySingle] at hh
    | cons a as ih =>
      intro t r' hh
      simp only [findLazySingle] at hh
      split at hh
      · simp at hh
      · split at hh
        · simp only [Option.some.injEq, Prod.mk.injEq] at hh
          obtain ⟨-, h2⟩ := hh
          subst h2
          simp only [List.length_drop, List.length_cons]
          omega
        · split at hh
          · next t0 r0 heq =>
            simp only [Option.some.injEq, Prod.mk.injEq] at hh
            obtain ⟨-, h2⟩ := hh
            have h2' := congrArg List.length h2
            have := ih t0 r0 heq
            simp only [List.length_cons]
            omega
          · simp at hh
  have hk := key _ _ _ h
  simp only [List.length_cons] at hk ⊢
  omega
· simp only [List.length_cons]; omega
· simp only [List.length_cons]; omega

/-- Global replacement for fenced code blocks: ` ```([^`]+)``` ` (the
character class crosses newlines, so the language tag line is captured
together with the code). -/
def fencedRep : Str → Str
  | [] => []
  | c :: rest =>
    if c = '`' ∧ rest.take 2 = str "``" then
      let content := (rest.drop 2).takeWhile (· ≠ '`')
      if content ≠ [] ∧ ((rest.drop 2).drop content.length).take 3 = str "```" then
        str "<pre><code>" ++ content ++ str "</code></pre>" ++
          fencedRep (((rest.drop 2).drop content.length).drop 3)
      else c :: fencedRep rest
    else c :: fencedRep rest
termination_by s => s.length
decreasing_by
· simp only [List.length_drop, List.length_cons]; omega
· simp only [List.length_cons]; omega
· simp only [List.length_cons]; omega

/-- Global replacement for inline code: `` `([^`]+)` ``. -/
def inlineCodeRep : Str → Str
  | [] => []
  | c :: rest =>
    if c = '`' then
      let content := rest.takeWhile (· ≠ '`')
      if content ≠ [] ∧ (rest.drop content.length).take 1 = ['`'] then
        str "<code>" ++ content ++ str "</code>" ++
          inlineCodeRep ((rest.drop content.length).drop 1)
      else c :: inlineCodeRep rest
    else c :: inlineCodeRep rest
termination_by s => s.length
decreasing_by
· simp only [List.length_drop, List.length_cons]; omega
· simp only [List.length_cons]; omega
· simp only [List.length_cons]; omega

/-- Line-anchored marker replacement, used for the ATX heading patterns
`^# (.*$)`, `^## (.*$)`, `^### (.*$)` (`reqContent := false`) and the list
item pattern `^\* (.+)` (`reqContent := true`).  The `atStart` flag tracks
whether the scan position is at a line start.  (The marker is non-empty in
every use; the emptiness test only serves the termination measure.) -/
def lineMarkRep (mark openT closeT : Str) (reqContent : Bool) : Bool → Str → Str
  | _, [] => []
  | atStart, c :: rest =>
    if atStart = true ∧ mark ≠ [] ∧ (c :: rest).take mark.length = mark then
      let after := (c :: rest).drop mark.length
      let content := after.takeWhile (· ≠ '\n')
      if reqContent = true ∧ content = [] then
        c :: lineMarkRep mark openT closeT reqContent (c = '\n') rest
      else
        openT ++ content ++ closeT ++
          lineMarkRep mark openT closeT reqContent false (after.drop content.length)
    else c :: lineMarkRep mark openT closeT reqContent (c = '\n') rest
termination_by _ s => s.length
decreasing_by
· simp only [List.length_cons]; omega
· rename_i hcond _
  obtain ⟨-, hm, ht⟩ := hcond
  have hml : 1 ≤ mark.length := by
    cases mark with
    | nil => exact absurd rfl hm
    | cons _ _ => simp
  have : ((c :: rest).drop mark.length).length = rest.length + 1 - mark.length := by
    simp
  simp only [List.length_drop, List.length_cons]
  omega
· simp only [List.length_cons]; omega

/-- Setext heading replacement `^(.+)\n=+\n` (level 1, `u = '='`) and
`^(.+)\n-+\n` (level 2, `u = '-'`): a non-empty line, a newline, a
non-empty run of the underline character, and a final newline, which the
match consumes. -/
def setextRep (u : Char) (openT closeT : Str) : Bool → Str → Str
  | _, [] => []
  | atStart, c :: rest =>
    if atStart = true then
      let content := (c :: rest).takeWhile (· ≠ '\n')
      let after1 := (c :: rest).drop content.length
      if content ≠ [] ∧ after1.take 1 = ['\n'] then
        let rest2 := after1.drop 1
        let eqs := rest2.takeWhile (· = u)
        if eqs ≠ [] ∧ (rest2.drop eqs.length).take 1 = ['\n'] then
          openT ++ content ++ closeT ++
            setextRep u openT closeT true ((rest2.drop eqs.length).drop 1)
        else c :: setextRep u openT closeT (c = '\n') rest
      else c :: setextRep u openT closeT (c = '\n') rest
    else c :: setextRep u openT closeT (c = '\n') rest
termination_by _ s => s.length
decreasing_by
all_goals (try simp only [List.length_drop, List.length_cons]); omega

/-- Attempt to match the tail of an inline link `\[([^\]]+)\]\(([^)]+)\)`
just after the opening `[`: a non-empty bracket-free label, `](`, a
non-empty paren-free url, `)`. -/
def linkMatch (rest : Str) : Option (Str × Str × Str) :=
  let label := rest.takeWhile (· ≠ ']')
  if label = [] then none
  else if (rest.drop label.length).take 2 = str "](" then
    let rest2 := (rest.drop label.length).drop 2
    let url := rest2.takeWhile (· ≠ ')')
    if url = [] then none
    else if (rest2.drop url.length).take 1 = [')'] then
      some (label, url, (rest2.drop url.length).drop 1)
    else none
  else none

/-- Global replacement of inline links with anchors. -/
def linkRep : Str → Str
  | [] => []
  | c :: rest =>
    if c = '[' then
      match h : linkMatch rest with
      | some (label, url, r') =>
        str "<a href=\"" ++ url ++ str "\">" ++ label ++ str "</a>" ++ linkRep r'
      | none => c :: linkRep rest
    else c :: linkRep rest
termination_by s => s.length
decreasing_by
· have key : ∀ (xs l u r' : Str), linkMatch xs = some (l, u, r') → r'.length < xs.length := by
    intro xs l u r' hh
    simp only [linkMatch] at hh
    split at hh
    · simp at hh
    · split at hh
      · split at hh
        · simp at hh
        · split at hh
          · simp only [Option.some.injEq, Prod.mk.injEq] at hh
            obtain ⟨-, -, h3⟩ := hh
            have h3' := congrArg List.length h3
            rename_i hlab h2 hurl h4
            have hl2 := congrArg List.length h2
            rw [List.length_take] at hl2
            have he2 : (str "](").length = 2 := rfl
            rw [he2] at hl2
            simp only [List.length_drop] at h3' hl2 ⊢
            omega
          · simp at hh
      · simp at hh
  have hk := key _ _ _ _ h
  simp only [List.length_cons]
  omega
· simp only [List.length_cons]; omega
· simp only [List.length_cons]; omega

/-- Paragraph wrapping `\n\n([^#\n<].+)` → `\n<p>$1</p>` (no multiline
flag: the two literal newlines are consumed, one is re-emitted). -/
def paraRep : Str → Str
  | '\n' :: '\n' :: c :: rest =>
    if c ≠ '#' ∧ c ≠ '\n' ∧ c ≠ '<' ∧ rest.takeWhile (· ≠ '\n') ≠ [] then
      '\n' :: str "<p>" ++ c :: rest.takeWhile (· ≠ '\n') ++ str "</p>" ++
        paraRep (rest.drop (rest.takeWhile (· ≠ '\n')).length)
    else '\n' :: paraRep ('\n' :: c :: rest)
  | c :: rest => c :: paraRep rest
  | [] => []
termination_by s => s.length
decreasing_by
· simp only [List.length_drop, List.length_cons]; omega
· simp only [List.length_cons]; omega
· simp only [List.length_cons]; omega

/-- Lazy `.*?` (dotall) up to the closing `</li>` tag: captured text and
the remainder after the tag, with a length certificate for termination. -/
def findLiClose : (xs : Str) → Option (Str × {r : Str // r.length < xs.length})
  | [] => none
  | c :: rest =>
    if h5 : (c :: rest).take 5 = str "</li>" then
      some ([], ⟨(c :: rest).drop 5, by
        have h' := congrArg List.length h5
        rw [List.length_take] at h'
        have h'' : (str "</li>").length = 5 := rfl
        rw [h''] at h'
        simp only [List.length_drop]
        omega⟩)
    else
      match findLiClose rest with
      | some (m, ⟨r', hr⟩) => some (c :: m, ⟨r', by simp only [List.length_cons]; omega⟩)
      | none => none

/-- One-or-more repetition `(<li>.*?<\/li>(\n)?)+`: the matched run and the
remainder, with a length certificate. -/
def ulUnits (s : Str) : Option (Str × {r : Str // r.length < s.length}) :=
  if hpre : s.take 4 = str "<li>" then
    have hs4 : 4 ≤ s.length := by
      have h' := congrArg List.length hpre
      rw [List.length_take] at h'
      have h'' : (str "<li>").length = 4 := rfl
      rw [h''] at h'
      omega
    match findLiClose (s.drop 4) with
    | none => none
    | some (mid, ⟨r1, h1⟩) =>
      have hr1 : r1.length < s.length := by
        simp only [List.length_drop] at h1
        omega
      if r1.take 1 = ['\n'] then
        have hr2 : (r1.drop 1).length < s.length := by
          simp only [List.length_drop]
          omega
        match ulUnits (r1.drop 1) with
        | some (more, ⟨r3, h3⟩) =>
          some (str "<li>" ++ mid ++ str "</li>" ++ ['\n'] ++ more, ⟨r3, by omega⟩)
        | none => some (str "<li>" ++ mid ++ str "</li>" ++ ['\n'], ⟨r1.drop 1, hr2⟩)
      else
        match ulUnits r1 with
        | some (more, ⟨r3, h3⟩) =>
          some (str "<li>" ++ mid ++ str "</li>" ++ more, ⟨r3, by omega⟩)
        | none => some (str "<li>" ++ mid ++ str "</li>", ⟨r1, hr1⟩)
  else none
termination_by s.length

/-- Scan for runs of list items and wrap each run in `<ul>…</ul>`. -/
def ulWrapAux : Str → Str
  | [] => []
  | c :: rest =>
    match ulUnits (c :: rest) with
    | some (run, ⟨r', hr⟩) => str "<ul>" ++ run ++ str "</ul>" ++ ulWrapAux r'
    | none => c :: ulWrapAux rest
termination_by s => s.length
decreasing_by
· exact hr
· simp only [List.length_cons]; omega

/-- The ordered substitution chain of `markdownToHtml` applied to the
markdown body, followed by the conditional `<ul>` wrapping pass. -/
def bodyTransform (md : Str) : Str :=
  let s := lineMarkRep (str "# ") (str "<h1>") (str "</h1>") false true md
  let s := lineMarkRep (str "## ") (str "<h2>") (str "</h2>") false true s
  let s := lineMarkRep (str "### ") (str "<h3>") (str "</h3>") false true s
  let s := setextRep '=' (str "<h1>") (str "</h1>") true s
  let s := setextRep '-' (str "<h2>") (str "</h2>") true s
  let s := doubleRep '*' (str "<strong>") (str "</strong>") s
  let s := doubleRep '_' (str "<strong>") (str "</strong>") s
  let s := singleRep '_' (str "<em>") (str "</em>") s
  let s := fencedRep s
  let s := inlineCodeRep s
  let s := lineMarkRep (str "* ") (str "<li>") (str "</li>") true true s
  let s := linkRep s
  let s := paraRep s
  if str "<li>" <:+: s then ulWrapAux s else s

/-- The fixed document template up to the interpolation point. -/
def htmlHead : Str :=
  str "<!DOCTYPE html>\n<html>\n<head>\n  <meta charset=\"UTF-8\">\n  <meta name=\"viewport\" content=\"width=device-width, initial-scale=1.0\">\n  <title>Generated Content</title>\n  <style>\n    body \x7b \n      max-width: 800px; \n      margin: 2rem auto; \n      padding: 0 1rem; \n      font-family: system-ui, -apple-system, sans-serif; \n      line-height: 1.6; \n    \x7d\n    pre \x7b \n      background: #f5f5f5; \n      padding: 1rem; \n      overflow-x: auto; \n      margin: 1.5rem 0;\n    \x7d\n    code \x7b \n      background: #f5f5f5; \n      padding: 0.2rem 0.4rem; \n      border-radius: 3px; \n    \x7d\n    ul \x7b \n      margin: 1.5rem 0;\n      padding-left: 2rem;\n      list-style-type: disc;\n    \x7d\n    li \x7b\n      margin: 0;\n      padding: 0;\n      line-height: 1.5;\n    \x7d\n    h1, h2, h3 \x7b \n      margin-top: 2rem;\n      margin-bottom: 1rem;\n    \x7d\n    p \x7b\n      margin: 1rem 0;\n    \x7d\n    /* Reset any inherited indentation */\n    ul + p,\n    ul + h1,\n    ul + h2,\n    ul + h3,\n    ul + pre \x7b\n      margin-top: 1.5rem;\n      margin-left: 0;\n    \x7d\n    a \x7b\n      color: #2563eb;\n      text-decoration: none;\n    \x7d\n    a:hover \x7b\n      text-decoration: underline;\n    \x7d\n  </style>\n</head>\n<body>\n  "

/-- The fixed document template after the interpolation point. -/
def htmlTail : Str := str "\n</body>\n</html>"

/-- `markdownToHtml`: the transformed body embedded in the fixed template. -/
def markdownToHtml (md : Str) : Str := htmlHead ++ bodyTransform md ++ htmlTail

/-!
Auxiliary definitions for the statements of the claims: a spec-side
sentence renderer, a character universe for the suppression claims, an
agreement relation on configurations, and concrete configurations and
random streams used as witnesses and counterexamples.
-/

/-- Spec-side rendering of one sentence from its drawn words: the words
joined by single spaces, suffixed by `". "`, the first character uppercased
when `capitalizeSentences` is set. -/
def renderSentence (opts : Options) (ws : List Str) : Str :=
  if opts.capitalizeSentences = true then upFirst (joinSpace ws ++ str ". ")
  else joinSpace ws ++ str ". "

/-- The characters that can appear in generator output when headings and
code snippets are suppressed: letters, digits, and the punctuation of
sentences, emphasis, lists and links.  Notably absent: `#`, `=`, `-`. -/
def safeChar (c : Char) : Bool :=
  c ∈ str "abcdefghijklmnopqrstuvwxyzABCDEFGHIJKLMNOPQRSTUVWXYZ0123456789 ._*\n[]():/"

/-- Two configurations agreeing on every field the generator reads, where
`strongStyle` is allowed to differ when `emStyle` is set (the emphasis pass
tests `emStyle` first). -/
def EffectiveAgree (o o' : Options) : Prop :=
  o.noHeaders = o'.noHeaders ∧ o.noCodeSnippets = o'.noCodeSnippets ∧
  o.noLists = o'.noLists ∧ o.noExternalLinks = o'.noExternalLinks ∧
  o.capitalizeSentences = o'.capitalizeSentences ∧
  o.underlinedHeaders = o'.underlinedHeaders ∧
  o.referenceLinks = o'.referenceLinks ∧ o.emStyle = o'.emStyle ∧
  o.codeBlocks = o'.codeBlocks ∧ o.numBlocks = o'.numBlocks ∧
  (o.strongStyle = o'.strongStyle ∨ o.emStyle = true)

/-- The degenerate random source that always draws 0. -/
def zeroStream : ℕ → ℚ := fun _ => 0

/-- A random source whose first draws are 0, 1/3, 2/3 (selecting the three
distinct positions 0, 1, 2 when `numBlocks = 3`) and 0 afterwards. -/
def sampleStream : ℕ → ℚ :=
  fun i => if i = 0 then 0 else if i = 1 then 1 / 3 else if i = 2 then 2 / 3 else 0

/-- Like `sampleStream`, but draw number 114 is 1/4, so that the code
example chosen for block 2 (after three sampling draws and three 37-draw
paragraphs) is the bash example. -/
def bashStream : ℕ → ℚ :=
  fun i => if i = 0 then 0 else if i = 1 then 1 / 3 else if i = 2 then 2 / 3
    else if i = 114 then 1 / 4 else 0

/-- Both emphasis flags set (`numBlocks` 3, everything else off). -/
def cfgBoth : Options :=
  ⟨false, false, false, false, false, false, false, false, false, false, true, true, false, 3⟩

/-- Only `emStyle` set. -/
def cfgEm : Options :=
  ⟨false, false, false, false, false, false, false, false, false, false, true, false, false, 3⟩

/-- Only `strongStyle` set. -/
def cfgStrong : Options :=
  ⟨false, false, false, false, false, false, false, false, false, false, false, true, false, 3⟩

/-- All flags off, a single block. -/
def cfgOneBlock : Options :=
  ⟨false, false, false, false, false, false, false, false, false, false, false, false, false, 1⟩

/-- All flags off, three blocks. -/
def cfg3 : Options :=
  ⟨false, false, false, false, false, false, false, false, false, false, false, false, false, 3⟩

/-- Headings suppressed, fenced code blocks on: the configuration of the
counterexample to the headers-suppression claim. -/
def cfgC3 : Options :=
  ⟨true, false, false, false, true, true, false, false, false, false, false, false, true, 3⟩

/-- Headings and code snippets suppressed, lists and inline links on. -/
def cfgC3w : Options :=
  ⟨true, true, false, false, false, false, false, false, false, false, false, false, false, 3⟩

/-- The output of the headers-suppression witness run. -/
def c3wOut : Str := (generateContent cfgC3w sampleStream 5).getD []

/-! ## General lemmas -/

theorem zeroStream_good : goodStream zeroStream := by
  intro i
  constructor <;> norm_num [zeroStream]

theorem sampleStream_good : goodStream sampleStream := by
  intro i
  simp only [sampleStream]
  split_ifs <;> norm_num

theorem ratFloor_eq_intFloor (q : ℚ) : Rat.floor q = ⌊q⌋ :=
  (Rat.floor_def' q).trans Rat.floor_def.symm

/-- A genuine random index into a non-empty collection is in range. -/
theorem randIdx_lt (r : ℕ → ℚ) (hr : goodStream r) (k n : ℕ) (hn : 0 < n) :
    randIdx r k n < n := by
  obtain ⟨h0, h1⟩ := hr k
  have hmul0 : (0 : ℚ) ≤ r k * (n : ℚ) :=
    mul_nonneg h0 (by exact_mod_cast Nat.zero_le n)
  have hmul1 : r k * (n : ℚ) < (n : ℚ) := by
    have hn' : (0 : ℚ) < (n : ℚ) := by exact_mod_cast hn
    calc r k * (n : ℚ) < 1 * (n : ℚ) := by
          exact mul_lt_mul_of_pos_right h1 hn'
      _ = (n : ℚ) := one_mul _
  have hf1 : ⌊r k * (n : ℚ)⌋ < (n : ℤ) := by
    rw [Int.floor_lt]
    exact_mod_cast hmul1
  have hf0 : (0 : ℤ) ≤ ⌊r k * (n : ℚ)⌋ := Int.floor_nonneg.2 hmul0
  simp only [randIdx, ratFloor_eq_intFloor]
  omega

/-- A genuine `getRandomInt(lo, hi)` draw lies in `[lo, hi]`. -/
theorem randInt_bounds (r : ℕ → ℚ) (hr : goodStream r) (k lo hi : ℕ) (hlh : lo ≤ hi) :
    lo ≤ randInt r k lo hi ∧ randInt r k lo hi ≤ hi := by
  have h := randIdx_lt r hr k (hi - lo + 1) (by omega)
  simp only [randIdx] at h
  simp only [randInt]
  omega

/-- `list[i]` is an element of the list for an in-range index. -/
theorem getWord_mem (l : List Str) (i : ℕ) (h : i < l.length) : l.getD i [] ∈ l := by
  rw [List.getD_eq_getElem l [] h]
  exact List.getElem_mem h

/-! ## C9: the converter always produces a complete HTML document -/

/-- C9: `toHtml` is total (a Lean function) and for every input string the
result starts with `<!DOCTYPE html>` and ends with `</html>`, with the
transformed input embedded between the fixed template halves. -/
theorem C9_toHtml_document (md : Str) :
    str "<!DOCTYPE html>" <+: markdownToHtml md ∧
    str "</html>" <:+ markdownToHtml md := by
  constructor
  · have h1 : str "<!DOCTYPE html>" <+: htmlHead := by decide
    have : markdownToHtml md = htmlHead ++ (bodyTransform md ++ htmlTail) := by
      simp [markdownToHtml]
    rw [this]
    exact h1.trans (List.prefix_append _ _)
  · have h1 : str "</html>" <:+ htmlTail := by decide
    exact h1.trans (List.suffix_append _ _)

/-! ## Congruence of the generator in the fields it does not read -/

theorem genSentences_agree (o o' : Options)
    (hc : o.capitalizeSentences = o'.capitalizeSentences) (r : ℕ → ℚ) :
    ∀ n k, genSentences o r n k = genSentences o' r n k := by
  intro n
  induction n with
  | zero => intro k; rfl
  | succ n ih => intro k; simp only [genSentences, hc, ih]

theorem styleTokens_agree (o o' : Options) (hem : o.emStyle = o'.emStyle)
    (hst : o.strongStyle = o'.strongStyle ∨ o.emStyle = true) (r : ℕ → ℚ) :
    ∀ ts k, styleTokens o r k ts = styleTokens o' r k ts := by
  intro ts
  induction ts with
  | nil => intro k; rfl
  | cons t ts ih =>
    intro k
    rcases hst with hst | hst
    · simp only [styleTokens, hem, hst, ih]
    · simp only [styleTokens, hst, hem ▸ hst, ih, if_true]

theorem generateParagraph_agree (o o' : Options)
    (hc : o.capitalizeSentences = o'.capitalizeSentences)
    (hem : o.emStyle = o'.emStyle)
    (hst : o.strongStyle = o'.strongStyle ∨ o.emStyle = true) (r : ℕ → ℚ) (k : ℕ) :
    generateParagraph o r k = generateParagraph o' r k := by
  have hguard : (o.emStyle = true ∨ o.strongStyle = true)
      ↔ (o'.emStyle = true ∨ o'.strongStyle = true) := by
    rcases hst with hst | hst
    · rw [hem, hst]
    · constructor
      · intro _; exact Or.inl (hem ▸ hst)
      · intro _; exact Or.inl hst
  simp only [generateParagraph, genSentences_agree o o' hc r,
    styleTokens_agree o o' hem hst r]
  split_ifs with h1 h2 h2
  · rfl
  · exact absurd (hguard.1 h1) h2
  · exact absurd (hguard.2 h2) h1
  · rfl

theorem generateHeading_agree (o o' : Options)
    (hu : o.underlinedHeaders = o'.underlinedHeaders)
    (level : ℕ) (r : ℕ → ℚ) (k fuel : ℕ) :
    generateHeading o level r k fuel = generateHeading o' level r k fuel := by
  simp only [generateHeading, hu]

theorem generateCodeBlock_agree (o o' : Options)
    (hcb : o.codeBlocks = o'.codeBlocks) (r : ℕ → ℚ) (k : ℕ) :
    generateCodeBlock o r k = generateCodeBlock o' r k := by
  simp only [generateCodeBlock, hcb]

theorem blockStep_agree (o o' : Options) (h : EffectiveAgree o o')
    (positions : Finset ℕ) (r : ℕ → ℚ) (fuel i : ℕ) (content : Str) (k : ℕ) :
    blockStep o positions r fuel i content k = blockStep o' positions r fuel i content k := by
  obtain ⟨h1, h2, h3, h4, h5, h6, h7, h8, h9, h10, h11⟩ := h
  simp only [blockStep, h1, h2, h3, h4, h6, h7, h9,
    generateParagraph_agree o o' h5 h8 h11 r,
    generateHeading_agree o o' h6, generateCodeBlock_agree o o' h9]

theorem blockLoop_agree (o o' : Options) (h : EffectiveAgree o o')
    (positions : Finset ℕ) (r : ℕ → ℚ) (fuel : ℕ) :
    ∀ is content k, blockLoop o positions r fuel is content k
      = blockLoop o' positions r fuel is content k := by
  intro is
  induction is with
  | nil => intro content k; rfl
  | cons i is ih =>
    intro content k
    simp only [blockLoop, blockStep_agree o o' h positions r fuel i content k]
    cases blockStep o' positions r fuel i content k with
    | none => rfl
    | some p => obtain ⟨c, k'⟩ := p; simp [ih]

theorem generateContent_agree (o o' : Options) (h : EffectiveAgree o o')
    (r : ℕ → ℚ) (fuel : ℕ) :
    generateContent o r fuel = generateContent o' r fuel := by
  obtain ⟨h1, h2, h3, h4, h5, h6, h7, h8, h9, h10, h11⟩ := h
  simp only [generateContent, h1, h6, h10,
    blockLoop_agree o o' ⟨h1, h2, h3, h4, h5, h6, h7, h8, h9, h10, h11⟩ _ r fuel,
    numSubheadings, h10]

/-! ## C6: `noInlineMarkup` and `noBlockquotes` have no effect -/

/-- C6: for every configuration, random source and fuel, flipping
`noInlineMarkup` and `noBlockquotes` to arbitrary values leaves the
generated document unchanged: no generation rule reads either flag. -/
theorem C6_dead_flags (opts : Options) (b₁ b₂ : Bool) (r : ℕ → ℚ) (fuel : ℕ) :
    generateContent { opts with noInlineMarkup := b₁, noBlockquotes := b₂ } r fuel
      = generateContent opts r fuel :=
  generateContent_agree { opts with noInlineMarkup := b₁, noBlockquotes := b₂ } opts
    ⟨rfl, rfl, rfl, rfl, rfl, rfl, rfl, rfl, rfl, rfl, Or.inl rfl⟩ r fuel

/-! ## C2: precedence of the emphasis styles when both are enabled -/

/-- C2 counterexample: with both `emStyle` and `strongStyle` enabled and
the all-zeros random source (every draw wraps), the paragraph contains a
word wrapped in exactly one underscore on each side (` _Lorem_ `) and no
double-underscore-wrapped word at all: em-style wins, not strong-style as
claimed. -/
theorem C2_counterexample :
    cfgBoth.emStyle = true ∧ cfgBoth.strongStyle = true ∧
    str " _Lorem_ " <:+: (generateParagraph cfgBoth zeroStream 0).1 ∧
    ¬ str "__Lorem" <:+: (generateParagraph cfgBoth zeroStream 0).1 := by
  refine ⟨rfl, rfl, ?_, ?_⟩ <;> decide

/-- C2 (amended): when both emphasis flags are set, em-style wins for any
given word: the generated paragraph (and the whole document) is identical
to the one generated with `strongStyle` cleared, so a wrapped word is
wrapped as `_word_` and never with double underscores. -/
theorem C2_em_style_wins (opts : Options) (b : Bool) (r : ℕ → ℚ) (k fuel : ℕ)
    (hem : opts.emStyle = true) :
    generateParagraph opts r k = generateParagraph { opts with strongStyle := b } r k ∧
    generateContent opts r fuel = generateContent { opts with strongStyle := b } r fuel :=
  ⟨generateParagraph_agree opts { opts with strongStyle := b } rfl rfl (Or.inr hem) r k,
   generateContent_agree opts { opts with strongStyle := b }
     ⟨rfl, rfl, rfl, rfl, rfl, rfl, rfl, rfl, rfl, rfl, Or.inr hem⟩ r fuel⟩

theorem C2_em_style_wins_witness :
    cfgBoth.emStyle = true ∧
    (generateParagraph cfgBoth zeroStream 0
        = generateParagraph { cfgBoth with strongStyle := false } zeroStream 0 ∧
     generateContent cfgBoth zeroStream 9
        = generateContent { cfgBoth with strongStyle := false } zeroStream 9) :=
  ⟨rfl, C2_em_style_wins cfgBoth false zeroStream 0 9 rfl⟩

/-! ## C1: the subheading sampling loop hangs for small block counts -/

/-- The rejection-sampling loop can never collect three distinct positions
from a domain of at most two values: for any fuel it fails. -/
theorem sampleLoop_small_domain_none (nb target : ℕ) (r : ℕ → ℚ)
    (hr : goodStream r) (hnb : nb ≤ 2) (ht : 3 ≤ target) :
    ∀ (fuel : ℕ) (s : Finset ℕ) (k : ℕ), s ⊆ Finset.range 2 →
      sampleLoop nb target r s k fuel = none := by
  intro fuel
  induction fuel with
  | zero =>
    intro s k hs
    have hcard : s.card ≤ 2 := by
      have := Finset.card_le_card hs
      simpa using this
    simp only [sampleLoop]
    rw [if_pos (by omega)]
  | succ fuel ih =>
    intro s k hs
    have hcard : s.card ≤ 2 := by
      have := Finset.card_le_card hs
      simpa using this
    have hx : randIdx r k nb < 2 := by
      rcases Nat.eq_zero_or_pos nb with h0 | hpos
      · subst h0
        simp [randIdx, ratFloor_eq_intFloor]
      · exact lt_of_lt_of_le (randIdx_lt r hr k nb hpos) hnb
    simp only [sampleLoop]
    rw [if_pos (by omega)]
    exact ih _ (k + 1) (Finset.insert_subset_iff.2 ⟨Finset.mem_range.2 hx, hs⟩)

/-- C1 (code bug): for `numBlocks ≤ 2` (in particular `numBlocks = 1`),
`generateContent` never returns, whatever the genuine random source and
however much fuel the sampling loop is given: `numSubheadings` is forced to
at least 3 while the sampled positions live in a domain of at most 2
values.  The code lacks the cap of `numSubheadings` at `numBlocks` that the
specification requires. -/
theorem C1_generate_hangs (opts : Options) (r : ℕ → ℚ) (fuel : ℕ)
    (hr : goodStream r) (hnb : opts.numBlocks ≤ 2) :
    generateContent opts r fuel = none := by
  have hs : ∀ k, sampleLoop opts.numBlocks (numSubheadings opts) r ∅ k fuel = none :=
    fun k => sampleLoop_small_domain_none opts.numBlocks (numSubheadings opts) r hr hnb
      (le_max_left _ _) fuel ∅ k (by simp)
  cases hH : opts.noHeaders with
  | false =>
    simp only [generateContent, hH]
    cases hG : generateRandomHeading r 0 fuel with
    | none => simp
    | some p => simp [hs]
  | true =>
    simp only [generateContent, hH]
    simp [hs]

theorem C1_generate_hangs_witness :
    goodStream zeroStream ∧ cfgOneBlock.numBlocks ≤ 2 ∧
    generateContent cfgOneBlock zeroStream 9 = none :=
  ⟨zeroStream_good, by decide,
   C1_generate_hangs cfgOneBlock zeroStream 9 zeroStream_good (by decide)⟩

/-! ## C4: the subheading position sampling -/

/-- Invariant of the sampling loop: starting from a set that is not larger
than the target and whose members are valid positions, a successful run
returns a set of exactly `target` distinct positions, all below
`numBlocks`. -/
theorem sampleLoop_spec (nb target : ℕ) (r : ℕ → ℚ) (hr : goodStream r)
    (hnb : 0 < nb) :
    ∀ (fuel : ℕ) (s : Finset ℕ) (k : ℕ) (s' : Finset ℕ) (k' : ℕ),
      s.card ≤ target → (∀ x ∈ s, x < nb) →
      sampleLoop nb target r s k fuel = some (s', k') →
      s'.card = target ∧ ∀ x ∈ s', x < nb := by
  intro fuel
  induction fuel with
  | zero =>
    intro s k s' k' hcard hmem hrun
    simp only [sampleLoop] at hrun
    split at hrun
    · exact absurd hrun (by simp)
    · rename_i hge
      obtain ⟨rfl, rfl⟩ : s = s' ∧ k = k' := by
        simpa [Prod.ext_iff] using hrun
      exact ⟨by omega, hmem⟩
  | succ fuel ih =>
    intro s k s' k' hcard hmem hrun
    simp only [sampleLoop] at hrun
    split at hrun
    · rename_i hlt
      refine ih _ (k + 1) s' k' ?_ ?_ hrun
      · have := Finset.card_insert_le (randIdx r k nb) s
        omega
      · intro x hx
        rcases Finset.mem_insert.1 hx with rfl | hx
        · exact randIdx_lt r hr k nb hnb
        · exact hmem x hx
    · rename_i hge
      obtain ⟨rfl, rfl⟩ : s = s' ∧ k = k' := by
        simpa [Prod.ext_iff] using hrun
      exact ⟨by omega, hmem⟩

/-- C4: for `3 ≤ numBlocks ≤ 10`, the generator computes
`numSubheadings = max(3, ⌊numBlocks / 4⌋)` and, whenever the sampling loop
of `generateContent` returns, it has selected exactly that many distinct
block indices, all in `[0, numBlocks)` (a `Finset`, hence no duplicates). -/
theorem C4_subheading_positions (opts : Options) (r : ℕ → ℚ) (fuel k : ℕ)
    (positions : Finset ℕ) (k' : ℕ) (hr : goodStream r)
    (h3 : 3 ≤ opts.numBlocks) (h10 : opts.numBlocks ≤ 10)
    (hrun : sampleLoop opts.numBlocks (numSubheadings opts) r ∅ k fuel
      = some (positions, k')) :
    numSubheadings opts = max 3 (opts.numBlocks / 4) ∧
    positions.card = numSubheadings opts ∧
    ∀ p ∈ positions, p < opts.numBlocks := by
  have h := sampleLoop_spec opts.numBlocks (numSubheadings opts) r hr (by omega)
    fuel ∅ k positions k' (by simp) (by simp) hrun
  exact ⟨rfl, h.1, h.2⟩

theorem C4_subheading_positions_witness :
    goodStream sampleStream ∧ 3 ≤ cfg3.numBlocks ∧ cfg3.numBlocks ≤ 10 ∧
    (sampleLoop cfg3.numBlocks (numSubheadings cfg3) sampleStream ∅ 0 5
      = some (insert 2 (insert 1 (insert 0 (∅ : Finset ℕ))), 3)) ∧
    (numSubheadings cfg3 = max 3 (cfg3.numBlocks / 4) ∧
     (insert 2 (insert 1 (insert 0 (∅ : Finset ℕ)))).card = numSubheadings cfg3 ∧
     ∀ p ∈ insert 2 (insert 1 (insert 0 (∅ : Finset ℕ))), p < cfg3.numBlocks) :=
  ⟨sampleStream_good, by decide, by decide, rfl,
   C4_subheading_positions cfg3 sampleStream 5 0 _ 3 sampleStream_good
     (by decide) (by decide) rfl⟩

/-! ## C10: tokenization artifacts of the emphasis pass -/

/-- C10: the emphasis pass splits the finished paragraph on single spaces,
so its tokens carry sentence punctuation and include the empty token after
the final `". "`.  With the all-zeros source every token is wrapped: with
`emStyle` the output contains `_Lorem._` and ends in a bare `__` (the
wrapped empty token); with `strongStyle` it contains `__Lorem.__` and ends
in `____`. -/
theorem C10_token_wrapping_artifacts :
    (str "_Lorem._" <:+: (generateParagraph cfgEm zeroStream 0).1 ∧
     str " __" <:+ (generateParagraph cfgEm zeroStream 0).1) ∧
    (str "__Lorem.__" <:+: (generateParagraph cfgStrong zeroStream 0).1 ∧
     str " ____" <:+ (generateParagraph cfgStrong zeroStream 0).1) := by
  refine ⟨⟨?_, ?_⟩, ?_, ?_⟩ <;> decide

/-! ## C3: output lines under `noHeaders` -/

/-- C3 counterexample: with `noHeaders = true` but code snippets enabled as
fenced blocks, the draw sequence `0, 1/3, 2/3, …, 1/4 (at draw 114), …`
makes block 2 emit the bash code example, whose first source line
`#!/bin/bash` begins a line of the output with `#`. -/
theorem C3_counterexample :
    cfgC3.noHeaders = true ∧
    ∃ l ∈ splitLines ((generateContent cfgC3 bashStream 10).getD []),
      l.head? = some '#' := by
  refine ⟨rfl, ?_⟩
  decide

/-- Appending preserves character safety. -/
theorem allSafe_append {a b : Str} (ha : ∀ c ∈ a, safeChar c = true)
    (hb : ∀ c ∈ b, safeChar c = true) : ∀ c ∈ a ++ b, safeChar c = true := by
  intro c hc
  rcases List.mem_append.1 hc with h | h
  exacts [ha c h, hb c h]

/-- The safe character set is closed under `toUpperCase`. -/
theorem safeChar_toUpper {c : Char} (h : safeChar c = true) :
    safeChar c.toUpper = true := by
  have hall : ∀ x ∈ str "abcdefghijklmnopqrstuvwxyzABCDEFGHIJKLMNOPQRSTUVWXYZ0123456789 ._*\n[]():/",
      safeChar x.toUpper = true := by decide
  exact hall c (of_decide_eq_true h)

theorem bodyWords_safe : ∀ w ∈ bodyWords, ∀ c ∈ w, safeChar c = true := by decide

theorem getWord_safe (l : List Str) (hl : ∀ w ∈ l, ∀ c ∈ w, safeChar c = true)
    (i : ℕ) : ∀ c ∈ getWord l i, safeChar c = true := by
  by_cases h : i < l.length
  · exact hl _ (getWord_mem l i h)
  · intro c hc
    rw [getWord, List.getD_eq_default] at hc
    · simp at hc
    · omega

theorem genSentenceWords_safe (r : ℕ → ℚ) :
    ∀ n k, ∀ c ∈ (genSentenceWords r n k).1, safeChar c = true := by
  intro n
  induction n with
  | zero => intro k c hc; simp [genSentenceWords] at hc
  | succ n ih =>
    intro k c hc
    simp only [genSentenceWords] at hc
    rcases List.mem_append.1 hc with h | h
    · exact getWord_safe bodyWords bodyWords_safe _ c h
    · rcases List.mem_cons.1 h with rfl | h
      · decide
      · exact ih (k + 1) c h

theorem jsTrim_subset (s : Str) : ∀ c ∈ jsTrim s, c ∈ s := by
  intro c hc
  simp only [jsTrim, List.mem_reverse] at hc
  have h1 : c ∈ (s.dropWhile Char.isWhitespace).reverse :=
    (List.dropWhile_sublist _).subset hc
  rw [List.mem_reverse] at h1
  exact (List.dropWhile_sublist _).subset h1

theorem upFirst_safe {s : Str} (hs : ∀ c ∈ s, safeChar c = true) :
    ∀ c ∈ upFirst s, safeChar c = true := by
  cases s with
  | nil => intro c hc; simp [upFirst] at hc
  | cons a s =>
    intro c hc
    rcases List.mem_cons.1 hc with rfl | hc
    · exact safeChar_toUpper (hs a (List.mem_cons_self _ _))
    · exact hs c (List.mem_cons_of_mem _ hc)

theorem genSentences_safe (opts : Options) (r : ℕ → ℚ) :
    ∀ n k, ∀ c ∈ (genSentences opts r n k).1, safeChar c = true := by
  intro n
  induction n with
  | zero => intro k c hc; simp [genSentences] at hc
  | succ n ih =>
    intro k c hc
    simp only [genSentences] at hc
    have hsent : ∀ c ∈ jsTrim (genSentenceWords r (randInt r k 8 15) (k + 1)).1 ++ str ". ",
        safeChar c = true := by
      refine allSafe_append ?_ (by decide)
      intro c hc
      exact genSentenceWords_safe r _ _ c (jsTrim_subset _ c hc)
    split at hc
    · exact allSafe_append (upFirst_safe hsent) (ih _) c hc
    · exact allSafe_append hsent (ih _) c hc

theorem splitOnSpace_subset : ∀ (s : Str), ∀ t ∈ splitOnSpace s, ∀ c ∈ t, c ∈ s := by
  intro s
  induction s with
  | nil =>
    intro t ht c hc
    simp only [splitOnSpace, List.mem_singleton] at ht
    subst ht
    simp at hc
  | cons a rest ih =>
    intro t ht c hc
    simp only [splitOnSpace] at ht
    split at ht
    · rcases List.mem_cons.1 ht with rfl | ht
      · simp at hc
      · exact List.mem_cons_of_mem _ (ih t ht c hc)
    · rcases hs : splitOnSpace rest with _ | ⟨t0, ts⟩
      · rw [hs] at ht
        simp only [List.mem_singleton] at ht
        subst ht
        rcases List.mem_singleton.1 hc with rfl
        exact List.mem_cons_self _ _
      · rw [hs] at ht
        rcases List.mem_cons.1 ht with rfl | ht
        · rcases List.mem_cons.1 hc with rfl | hc
          · exact List.mem_cons_self _ _
          · exact List.mem_cons_of_mem _ (ih t0 (hs ▸ List.mem_cons_self _ _) c hc)
        · exact List.mem_cons_of_mem _ (ih t (hs ▸ List.mem_cons_of_mem _ ht) c hc)

theorem styleTokens_safe (opts : Options) (r : ℕ → ℚ) :
    ∀ ts k, (∀ t ∈ ts, ∀ c ∈ t, safeChar c = true) →
      ∀ t' ∈ (styleTokens opts r k ts).1, ∀ c ∈ t', safeChar c = true := by
  intro ts
  induction ts with
  | nil => intro k h t' ht'; simp [styleTokens] at ht'
  | cons t ts ih =>
    intro k h t' ht'
    simp only [styleTokens] at ht'
    rcases List.mem_cons.1 ht' with rfl | ht'
    · have hhead := h t (List.mem_cons_self _ _)
      have hwrap1 : ∀ c ∈ '_' :: t ++ ['_'], safeChar c = true := by
        intro c hc
        rcases List.mem_cons.1 hc with rfl | hc
        · decide
        · rcases List.mem_append.1 hc with h1 | h1
          · exact hhead c h1
          · rcases List.mem_singleton.1 h1 with rfl
            decide
      have hwrap2 : ∀ c ∈ '_' :: '_' :: t ++ ['_', '_'], safeChar c = true := by
        intro c hc
        rcases List.mem_cons.1 hc with rfl | hc
        · decide
        · rcases List.mem_cons.1 hc with rfl | hc
          · decide
          · rcases List.mem_append.1 hc with h1 | h1
            · exact hhead c h1
            · rcases List.mem_cons.1 h1 with rfl | h1
              · decide
              · rcases List.mem_singleton.1 h1 with rfl
                decide
      intro c hc
      split at hc
      · split at hc
        · exact hwrap1 c hc
        · split at hc
          · exact hwrap2 c hc
          · exact hhead c hc
      · exact hhead c hc
    · exact ih (k + 1) (fun u hu => h u (List.mem_cons_of_mem _ hu)) t' ht'

theorem joinSpace_safe : ∀ (l : List Str),
    (∀ t ∈ l, ∀ c ∈ t, safeChar c = true) → ∀ c ∈ joinSpace l, safeChar c = true := by
  intro l
  induction l with
  | nil => intro h c hc; simp [joinSpace] at hc
  | cons t ts ih =>
    intro h c hc
    cases ts with
    | nil => exact h t (List.mem_cons_self _ _) c hc
    | cons t' ts' =>
      simp only [joinSpace] at hc
      rcases List.mem_append.1 hc with h1 | h1
      · exact h t (List.mem_cons_self _ _) c h1
      · rcases List.mem_cons.1 h1 with rfl | h1
        · decide
        · exact ih (fun u hu => h u (List.mem_cons_of_mem _ hu)) c h1

theorem generateParagraph_safe (opts : Options) (r : ℕ → ℚ) (k : ℕ) :
    ∀ c ∈ (generateParagraph opts r k).1, safeChar c = true := by
  intro c hc
  simp only [generateParagraph] at hc
  split at hc
  · refine joinSpace_safe _ ?_ c hc
    intro t ht
    refine styleTokens_safe opts r _ _ ?_ t ht
    intro u hu d hd
    exact genSentences_safe opts r _ _ d
      (splitOnSpace_subset _ u hu d hd)
  · exact genSentences_safe opts r _ _ c hc

theorem numStr_safe : ∀ n, ∀ c ∈ numStr n, safeChar c = true := by
  intro n
  induction n using Nat.strong_induction_on with
  | _ n ih =>
    rw [numStr]
    split
    · rename_i h
      intro c hc
      rcases List.mem_singleton.1 hc with rfl
      interval_cases n <;> decide
    · rename_i h
      intro c hc
      rcases List.mem_append.1 hc with h1 | h1
      · exact ih (n / 10) (Nat.div_lt_self (by omega) (by omega)) c h1
      · rcases List.mem_singleton.1 h1 with rfl
        have hlt : n % 10 < 10 := Nat.mod_lt _ (by norm_num)
        set m := n % 10 with hm
        interval_cases m <;> decide

theorem refLinkText_safe (i : ℕ) : ∀ c ∈ refLinkText i, safeChar c = true := by
  simp only [refLinkText]
  repeat' apply allSafe_append
  all_goals first | decide | exact numStr_safe _

theorem inlineLinkText_safe (i : ℕ) : ∀ c ∈ inlineLinkText i, safeChar c = true := by
  simp only [inlineLinkText]
  repeat' apply allSafe_append
  all_goals first | decide | exact numStr_safe _

theorem listLiteral_safe : ∀ c ∈ listLiteral, safeChar c = true := by decide

/-- One block step, with headings and code snippets suppressed, keeps the
accumulated content inside the safe character set. -/
theorem blockStep_safe (opts : Options) (positions : Finset ℕ) (r : ℕ → ℚ)
    (fuel i : ℕ) (content : Str) (k : ℕ) (out : Str × ℕ)
    (hH : opts.noHeaders = true) (hC : opts.noCodeSnippets = true)
    (hcontent : ∀ c ∈ content, safeChar c = true)
    (hrun : blockStep opts positions r fuel i content k = some out) :
    ∀ c ∈ out.1, safeChar c = true := by
  simp only [blockStep, hH, hC] at hrun
  simp only [Bool.true_eq_false, and_false, false_and, if_false, ite_false,
    Option.pure_def, Option.bind_some, Option.some_bind, Option.bind_eq_bind] at hrun
  have hpara : ∀ c ∈ content ++ (generateParagraph opts r k).1 ++ str "\n\n",
      safeChar c = true :=
    allSafe_append (allSafe_append hcontent (generateParagraph_safe opts r k))
      (by decide)
  have hlist : ∀ c ∈ (if opts.noLists = false ∧ i % 4 = 1
      then content ++ (generateParagraph opts r k).1 ++ str "\n\n" ++ listLiteral
      else content ++ (generateParagraph opts r k).1 ++ str "\n\n"),
      safeChar c = true := by
    split
    · exact allSafe_append hpara listLiteral_safe
    · exact hpara
  obtain rfl := Option.some.inj hrun
  dsimp only
  split
  · exact allSafe_append hlist (refLinkText_safe i)
  · split
    · exact allSafe_append hlist (inlineLinkText_safe i)
    · exact hlist

theorem blockLoop_safe (opts : Options) (positions : Finset ℕ) (r : ℕ → ℚ)
    (fuel : ℕ) (hH : opts.noHeaders = true) (hC : opts.noCodeSnippets = true) :
    ∀ (is : List ℕ) (content : Str) (k : ℕ) (out : Str × ℕ),
      (∀ c ∈ content, safeChar c = true) →
      blockLoop opts positions r fuel is content k = some out →
      ∀ c ∈ out.1, safeChar c = true := by
  intro is
  induction is with
  | nil =>
    intro content k out hcontent hrun
    simp only [blockLoop] at hrun
    obtain rfl := Option.some.inj hrun
    exact hcontent
  | cons i is ih =>
    intro content k out hcontent hrun
    simp only [blockLoop, Option.bind_eq_bind] at hrun
    cases hstep : blockStep opts positions r fuel i content k with
    | none => rw [hstep] at hrun; simp at hrun
    | some p =>
      rw [hstep] at hrun
      simp only [Option.some_bind] at hrun
      obtain ⟨c', k'⟩ := p
      exact ih c' k' out
        (blockStep_safe opts positions r fuel i content k _ hH hC hcontent hstep)
        hrun

theorem splitLines_subset : ∀ (s : Str), ∀ l ∈ splitLines s, ∀ c ∈ l, c ∈ s := by
  intro s
  induction s with
  | nil =>
    intro l hl c hc
    simp only [splitLines, List.mem_singleton] at hl
    subst hl
    simp at hc
  | cons a rest ih =>
    intro l hl c hc
    simp only [splitLines] at hl
    split at hl
    · rcases List.mem_cons.1 hl with rfl | hl
      · simp at hc
      · exact List.mem_cons_of_mem _ (ih l hl c hc)
    · rcases hs : splitLines rest with _ | ⟨t0, ts⟩
      · rw [hs] at hl
        simp only [List.mem_singleton] at hl
        subst hl
        rcases List.mem_singleton.1 hc with rfl
        exact List.mem_cons_self _ _
      · rw [hs] at hl
        rcases List.mem_cons.1 hl with rfl | hl
        · rcases List.mem_cons.1 hc with rfl | hc
          · exact List.mem_cons_self _ _
          · exact List.mem_cons_of_mem _ (ih t0 (hs ▸ List.mem_cons_self _ _) c hc)
        · exact List.mem_cons_of_mem _ (ih l (hs ▸ List.mem_cons_of_mem _ hl) c hc)

/-- C3 (amended): for every configuration with `noHeaders = true` and
`noCodeSnippets = true`, every random source and fuel, a completed
generation contains no line beginning with `#` and no Setext pattern.
(The original claim, quantifying over all configurations with only
`noHeaders = true`, fails: an emitted fenced bash code block contributes
the line `#!/bin/bash` — see the counterexample.) -/
theorem C3_no_headers_amended (opts : Options) (r : ℕ → ℚ) (fuel : ℕ) (s : Str)
    (hH : opts.noHeaders = true) (hC : opts.noCodeSnippets = true)
    (hrun : generateContent opts r fuel = some s) :
    (∀ l ∈ splitLines s, l.head? ≠ some '#') ∧ hasSetextPattern s = false := by
  have hsafe : ∀ c ∈ s, safeChar c = true := by
    simp only [generateContent, hH, Bool.true_eq_false, if_false, ite_false,
      Option.pure_def, Option.bind_eq_bind, Option.some_bind] at hrun
    cases hsamp : sampleLoop opts.numBlocks (numSubheadings opts) r ∅ 0 fuel with
    | none => rw [hsamp] at hrun; simp at hrun
    | some q =>
      rw [hsamp] at hrun
      simp only [Option.some_bind] at hrun
      obtain ⟨positions, k⟩ := q
      cases hloop : blockLoop opts positions r fuel (List.range opts.numBlocks) [] k with
      | none => rw [hloop] at hrun; simp at hrun
      | some out =>
        rw [hloop] at hrun
        simp only [Option.some_bind] at hrun
        obtain ⟨c', k'⟩ := out
        obtain rfl : c' = s := by simpa using hrun
        exact blockLoop_safe opts positions r fuel hH hC _ [] k _ (by simp) hloop
  constructor
  · intro l hl heq
    cases l with
    | nil => simp at heq
    | cons a l' =>
      obtain rfl : a = '#' := by simpa using heq
      have := hsafe '#' (splitLines_subset s _ hl '#' (List.mem_cons_self _ _))
      exact absurd this (by decide)
  · cases hpat : hasSetextPattern s with
    | false => rfl
    | true =>
      exfalso
      simp only [hasSetextPattern, List.any_eq_true] at hpat
      obtain ⟨p, hp, hcond⟩ := hpat
      rw [Bool.and_eq_true] at hcond
      have h2 : isUnderlineLine p.2 = true := hcond.2
      have hmem2 : p.2 ∈ splitLines s :=
        List.mem_of_mem_tail (List.of_mem_zip hp).2
      simp only [isUnderlineLine, Bool.and_eq_true, Bool.or_eq_true,
        decide_eq_true_eq] at h2
      obtain ⟨hne, hall⟩ := h2
      cases hl2 : p.2 with
      | nil => exact hne hl2
      | cons c rest =>
        have hcin : c ∈ s :=
          splitLines_subset s _ hmem2 c (hl2 ▸ List.mem_cons_self _ _)
        have hcs := hsafe c hcin
        rcases hall with hall | hall
        · rw [hl2] at hall
          simp only [List.all_cons, Bool.and_eq_true, decide_eq_true_eq] at hall
          obtain ⟨rfl, -⟩ := hall
          exact absurd hcs (by decide)
        · rw [hl2] at hall
          simp only [List.all_cons, Bool.and_eq_true, decide_eq_true_eq] at hall
          obtain ⟨rfl, -⟩ := hall
          exact absurd hcs (by decide)

theorem C3_no_headers_amended_witness :
    cfgC3w.noHeaders = true ∧ cfgC3w.noCodeSnippets = true ∧
    ((∀ l ∈ splitLines c3wOut, l.head? ≠ some '#') ∧
     hasSetextPattern c3wOut = false) :=
  ⟨rfl, rfl, C3_no_headers_amended cfgC3w sampleStream 5 c3wOut rfl rfl rfl⟩

/-! ## C5: structure of a generated paragraph -/

theorem bodyWords_wordOk :
    ∀ w ∈ bodyWords, w ≠ [] ∧ ∀ c ∈ w, c.isWhitespace = false := by decide

theorem bodyWords_headUpper :
    ∀ w ∈ bodyWords, w.headI.toUpper.isUpper = true := by decide

/-- The word loop of a sentence emits each drawn word followed by one
space. -/
theorem genSentenceWords_spec (r : ℕ → ℚ) (hr : goodStream r) :
    ∀ n k, ∃ ws : List Str, ws.length = n ∧ (∀ w ∈ ws, w ∈ bodyWords) ∧
      (genSentenceWords r n k).1 = (ws.map (fun w => w ++ [' '])).join := by
  intro n
  induction n with
  | zero =>
    intro k
    exact ⟨[], rfl, by simp, rfl⟩
  | succ n ih =>
    intro k
    obtain ⟨ws, hlen, hmem, heq⟩ := ih (k + 1)
    refine ⟨getWord bodyWords (randIdx r k 46) :: ws, by simp [hlen], ?_, ?_⟩
    · intro w hw
      rcases List.mem_cons.1 hw with rfl | hw
      · exact getWord_mem bodyWords _ (randIdx_lt r hr k 46 (by norm_num))
      · exact hmem w hw
    · simp only [genSentenceWords, heq, List.map_cons, List.join_cons]
      simp

/-- Joining words-with-trailing-spaces equals the space-joined words plus
one final space. -/
theorem join_trail (ws : List Str) (hne : ws ≠ []) :
    (ws.map (fun w => w ++ [' '])).join = joinSpace ws ++ [' '] := by
  induction ws with
  | nil => exact absurd rfl hne
  | cons w ws ih =>
    cases ws with
    | nil => simp [joinSpace]
    | cons w' ws' =>
      have ih' := ih (by simp)
      simp only [List.map_cons, List.join_cons] at ih' ⊢
      rw [ih']
      simp [joinSpace]

/-- The space-join of non-empty words starts with the first word. -/
theorem joinSpace_cons_structure (w : Str) (ws : List Str) :
    ∃ rest, joinSpace (w :: ws) = w ++ rest := by
  cases ws with
  | nil => exact ⟨[], by simp [joinSpace]⟩
  | cons w' ws' => exact ⟨' ' :: joinSpace (w' :: ws'), rfl⟩

/-- The reverse of a space-join of non-empty, whitespace-free words starts
with a non-whitespace character. -/
theorem joinSpace_reverse_structure :
    ∀ (ws : List Str), ws ≠ [] →
      (∀ w ∈ ws, w ≠ [] ∧ ∀ c ∈ w, c.isWhitespace = false) →
      ∃ c rest, (joinSpace ws).reverse = c :: rest ∧ c.isWhitespace = false := by
  intro ws
  induction ws with
  | nil => intro h; exact absurd rfl h
  | cons w ws ih =>
    intro _ hw
    cases ws with
    | nil =>
      obtain ⟨hwne, hwc⟩ := hw w (List.mem_cons_self _ _)
      cases hrev : w.reverse with
      | nil => exact absurd (List.reverse_eq_nil_iff.1 hrev) hwne
      | cons c rest =>
        refine ⟨c, rest, by simp [joinSpace, hrev], ?_⟩
        have : c ∈ w := by
          rw [← List.mem_reverse, hrev]
          exact List.mem_cons_self _ _
        exact hwc c this
    | cons w' ws' =>
      obtain ⟨c, rest, hrev, hc⟩ := ih (by simp)
        (fun u hu => hw u (List.mem_cons_of_mem _ hu))
      refine ⟨c, rest ++ [' '] ++ w.reverse, ?_, hc⟩
      show (w ++ ' ' :: joinSpace (w' :: ws')).reverse = _
      rw [List.reverse_append, List.reverse_cons, hrev]
      simp

/-- `trim` of the word-loop output: the trailing space goes, nothing else. -/
theorem jsTrim_join_trail (ws : List Str) (hne : ws ≠ [])
    (hw : ∀ w ∈ ws, w ≠ [] ∧ ∀ c ∈ w, c.isWhitespace = false) :
    jsTrim (joinSpace ws ++ [' ']) = joinSpace ws := by
  obtain ⟨w, ws', rfl⟩ : ∃ w ws', ws = w :: ws' := by
    cases ws with
    | nil => exact absurd rfl hne
    | cons w ws' => exact ⟨w, ws', rfl⟩
  obtain ⟨hwne, hwc⟩ := hw w (List.mem_cons_self _ _)
  obtain ⟨c₀, w', rfl⟩ : ∃ c₀ w', w = c₀ :: w' := by
    cases w with
    | nil => exact absurd rfl hwne
    | cons c₀ w' => exact ⟨c₀, w', rfl⟩
  have hc₀ : c₀.isWhitespace = false := hwc c₀ (List.mem_cons_self _ _)
  obtain ⟨rest, hjoin⟩ := joinSpace_cons_structure (c₀ :: w') ws'
  have hstep1 : (joinSpace ((c₀ :: w') :: ws') ++ [' ']).dropWhile Char.isWhitespace
      = joinSpace ((c₀ :: w') :: ws') ++ [' '] := by
    rw [hjoin]
    simp only [List.cons_append, List.dropWhile_cons, hc₀]
    simp
  obtain ⟨c, revRest, hrev, hcws⟩ :=
    joinSpace_reverse_structure ((c₀ :: w') :: ws') (by simp) hw
  rw [jsTrim, hstep1]
  rw [List.reverse_append]
  simp only [List.reverse_singleton, List.singleton_append, List.dropWhile_cons]
  rw [hrev]
  simp only [List.dropWhile_cons, hcws]
  simp only [Bool.false_eq_true, if_false, ite_false]
  rw [← hrev]
  simp

/-- The sentence loop realizes the spec-side sentence rendering. -/
theorem genSentences_spec (opts : Options) (r : ℕ → ℚ) (hr : goodStream r) :
    ∀ n k, ∃ wss : List (List Str),
      wss.length = n ∧
      (∀ ws ∈ wss, 8 ≤ ws.length ∧ ws.length ≤ 15 ∧ ∀ w ∈ ws, w ∈ bodyWords) ∧
      (genSentences opts r n k).1 = (wss.map (renderSentence opts)).join := by
  intro n
  induction n with
  | zero => exact fun k => ⟨[], rfl, by simp, rfl⟩
  | succ n ih =>
    intro k
    obtain ⟨ws, hwlen, hwmem, hweq⟩ := genSentenceWords_spec r hr (randInt r k 8 15) (k + 1)
    obtain ⟨hlo, hhi⟩ := randInt_bounds r hr k 8 15 (by norm_num)
    obtain ⟨wss, hlen, hmem, heq⟩ := ih (genSentenceWords r (randInt r k 8 15) (k + 1)).2
    have hwsne : ws ≠ [] := by
      intro h
      rw [h] at hwlen
      simp at hwlen
      omega
    have hwok : ∀ w ∈ ws, w ≠ [] ∧ ∀ c ∈ w, c.isWhitespace = false :=
      fun w hw => bodyWords_wordOk w (hwmem w hw)
    have hsent : jsTrim (genSentenceWords r (randInt r k 8 15) (k + 1)).1 ++ str ". "
        = joinSpace ws ++ str ". " := by
      rw [hweq, join_trail ws hwsne, jsTrim_join_trail ws hwsne hwok]
    refine ⟨ws :: wss, by simp [hlen], ?_, ?_⟩
    · intro u hu
      rcases List.mem_cons.1 hu with rfl | hu
      · exact ⟨by omega, by omega, hwmem⟩
      · exact hmem u hu
    · simp only [genSentences, heq, List.map_cons, List.join_cons, renderSentence]
      split
      · rw [hsent]
      · rw [hsent]

/-- First character of a rendered sentence. -/
theorem renderSentence_head (opts : Options) (ws : List Str) (hne : ws ≠ [])
    (hmem : ∀ w ∈ ws, w ∈ bodyWords) :
    (renderSentence opts ws).headI.isUpper
      = (opts.capitalizeSentences || ws.headI.headI.isUpper) := by
  obtain ⟨w, ws', rfl⟩ : ∃ w ws', ws = w :: ws' := by
    cases ws with
    | nil => exact absurd rfl hne
    | cons w ws' => exact ⟨w, ws', rfl⟩
  have hwmem := hmem w (List.mem_cons_self _ _)
  have hwne : w ≠ [] := (bodyWords_wordOk w hwmem).1
  obtain ⟨c₀, w', rfl⟩ : ∃ c₀ w', w = c₀ :: w' := by
    cases w with
    | nil => exact absurd rfl hwne
    | cons c₀ w' => exact ⟨c₀, w', rfl⟩
  obtain ⟨rest, hjoin⟩ := joinSpace_cons_structure (c₀ :: w') ws'
  have hupper := bodyWords_headUpper _ hwmem
  simp only [List.headI] at hupper
  simp only [renderSentence, hjoin]
  cases hcap : opts.capitalizeSentences with
  | true =>
    simp only [hcap, if_true, Bool.true_or, List.cons_append, upFirst, List.headI]
    exact hupper
  | false =>
    simp only [hcap, Bool.false_or, Bool.false_eq_true, if_false, ite_false,
      List.cons_append, List.headI]

/-- C5: with both emphasis styles off, a generated paragraph is the
concatenation of 4–15 rendered sentences; each sentence consists of 8–15
words drawn from the body word list, joined by single spaces and ending
with `". "`; the first character of each rendered sentence is uppercase
exactly when `capitalizeSentences` is set or the sentence's first drawn
word already starts with an uppercase letter. -/
theorem C5_paragraph_structure (opts : Options) (r : ℕ → ℚ) (k : ℕ)
    (hem : opts.emStyle = false) (hst : opts.strongStyle = false)
    (hr : goodStream r) :
    ∃ wss : List (List Str),
      4 ≤ wss.length ∧ wss.length ≤ 15 ∧
      (∀ ws ∈ wss, 8 ≤ ws.length ∧ ws.length ≤ 15 ∧ ∀ w ∈ ws, w ∈ bodyWords) ∧
      (generateParagraph opts r k).1 = (wss.map (renderSentence opts)).join ∧
      ∀ ws ∈ wss, (renderSentence opts ws).headI.isUpper
          = (opts.capitalizeSentences || ws.headI.headI.isUpper) := by
  obtain ⟨wss, hlen, hmem, heq⟩ := genSentences_spec opts r hr (randInt r k 4 15) (k + 1)
  obtain ⟨hlo, hhi⟩ := randInt_bounds r hr k 4 15 (by norm_num)
  refine ⟨wss, by omega, by omega, hmem, ?_, ?_⟩
  · simp only [generateParagraph, hem, hst]
    simp only [Bool.false_eq_true, or_self, if_false, ite_false]
    exact heq
  · intro ws hws
    have h8 := (hmem ws hws).1
    refine renderSentence_head opts ws ?_ (hmem ws hws).2.2
    intro h
    rw [h] at h8
    simp at h8

theorem C5_paragraph_structure_witness :
    cfg3.emStyle = false ∧ cfg3.strongStyle = false ∧ goodStream zeroStream ∧
    ∃ wss : List (List Str),
      4 ≤ wss.length ∧ wss.length ≤ 15 ∧
      (∀ ws ∈ wss, 8 ≤ ws.length ∧ ws.length ≤ 15 ∧ ∀ w ∈ ws, w ∈ bodyWords) ∧
      (generateParagraph cfg3 zeroStream 0).1 = (wss.map (renderSentence cfg3)).join ∧
      ∀ ws ∈ wss, (renderSentence cfg3 ws).headI.isUpper
          = (cfg3.capitalizeSentences || ws.headI.headI.isUpper) :=
  ⟨rfl, rfl, zeroStream_good,
   C5_paragraph_structure cfg3 zeroStream 0 rfl rfl zeroStream_good⟩

/-! ## C7: `__` strong replacement runs before `_` emphasis replacement -/

/-- The lazy search after an opening double delimiter finds the first
closing pair. -/
theorem findLazyPair_extract (d : Char) (t b : Str) (ht : t ≠ [])
    (htn : ∀ c ∈ t, c ≠ '\n') (htd : ∀ c ∈ t, c ≠ d) :
    findLazyPair d (t ++ d :: d :: b) = some (t, b) := by
  induction t with
  | nil => exact absurd rfl ht
  | cons c t' ih =>
    have hcn : c ≠ '\n' := htn c (List.mem_cons_self _ _)
    simp only [List.cons_append, findLazyPair]
    rw [if_neg hcn]
    cases t' with
    | nil =>
      simp
    | cons c' t'' =>
      have hc' : c' ≠ d := htd c' (by simp)
      rw [if_neg (by
        intro h
        have : c' = d := by
          have := congrArg (fun l => l.head?) h
          simpa using this
        exact hc' this)]
      have ih' := ih (by simp) (fun x hx => htn x (List.mem_cons_of_mem _ hx))
        (fun x hx => htd x (List.mem_cons_of_mem _ hx))
      simp only [List.append_eq]
      rw [ih']

/-- The double-delimiter replacement passes over delimiter-free text. -/
theorem doubleRep_skip (d : Char) (o cl : Str) (a : Str)
    (ha : ∀ c ∈ a, c ≠ d) :
    ∀ b, doubleRep d o cl (a ++ b) = a ++ doubleRep d o cl b := by
  induction a with
  | nil => intro b; simp
  | cons c a' ih =>
    intro b
    have hc : c ≠ d := ha c (List.mem_cons_self _ _)
    simp only [List.cons_append]
    rw [doubleRep]
    rw [if_neg (by intro h; exact hc h.1)]
    rw [ih (fun x hx => ha x (List.mem_cons_of_mem _ hx)) b]

/-- The double-delimiter replacement is the identity on delimiter-free
text. -/
theorem doubleRep_id (d : Char) (o cl : Str) (s : Str)
    (hs : ∀ c ∈ s, c ≠ d) : doubleRep d o cl s = s := by
  have := doubleRep_skip d o cl s hs []
  simpa [doubleRep] using this

/-- The double-delimiter replacement converts one well-delimited
occurrence and leaves the delimiter-free surroundings alone. -/
theorem doubleRep_extract (d : Char) (o cl : Str) (a t b : Str)
    (ha : ∀ c ∈ a, c ≠ d) (ht : t ≠ []) (htn : ∀ c ∈ t, c ≠ '\n')
    (htd : ∀ c ∈ t, c ≠ d) (hb : ∀ c ∈ b, c ≠ d) :
    doubleRep d o cl (a ++ d :: d :: (t ++ d :: d :: b))
      = a ++ o ++ t ++ cl ++ b := by
  rw [doubleRep_skip d o cl a ha]
  rw [doubleRep]
  rw [if_pos ⟨rfl, by
    cases t with
    | nil => exact absurd rfl ht
    | cons x t' => simp⟩]
  have hfind := findLazyPair_extract d t b ht htn htd
  simp only [List.drop_succ_cons, List.drop_zero]
  split
  · rename_i t' r' heq
    rw [hfind] at heq
    obtain ⟨rfl, rfl⟩ : t = t' ∧ b = r' := by
      have := Option.some.inj heq
      exact ⟨congrArg Prod.fst this, congrArg Prod.snd this⟩
    rw [doubleRep_id d o cl b hb]
    simp [List.append_assoc]
  · rename_i heq
    rw [hfind] at heq
    exact absurd heq (by simp)

/-- A single-delimited occurrence, with delimiter-free body and
surroundings, is untouched by the double-delimiter replacement. -/
theorem doubleRep_single_untouched (d : Char) (o cl : Str) (a t b : Str)
    (ha : ∀ c ∈ a, c ≠ d) (ht : t ≠ []) (htd : ∀ c ∈ t, c ≠ d)
    (hb : ∀ c ∈ b, c ≠ d) :
    doubleRep d o cl (a ++ d :: (t ++ d :: b)) = a ++ d :: (t ++ d :: b) := by
  rw [doubleRep_skip d o cl a ha]
  rw [doubleRep]
  rw [if_neg (by
    intro h
    obtain ⟨-, h2⟩ := h
    cases t with
    | nil => exact absurd rfl ht
    | cons x t' =>
      have : x = d := by
        have := congrArg (fun l => l.head?) h2
        simpa using this
      exact htd x (List.mem_cons_self _ _) this)]
  rw [doubleRep_skip d o cl t htd]
  rw [doubleRep]
  rw [if_neg (by
    intro h
    obtain ⟨-, h2⟩ := h
    cases b with
    | nil => simp at h2
    | cons x b' =>
      have : x = d := by
        have := congrArg (fun l => l.head?) h2
        simpa using this
      exact hb x (List.mem_cons_self _ _) this)]
  rw [doubleRep_id d o cl b hb]

/-- The lazy search after an opening single delimiter finds the first
closing delimiter. -/
theorem findLazySingle_extract (d : Char) (t b : Str) (ht : t ≠ [])
    (htn : ∀ c ∈ t, c ≠ '\n') (htd : ∀ c ∈ t, c ≠ d) :
    findLazySingle d (t ++ d :: b) = some (t, b) := by
  induction t with
  | nil => exact absurd rfl ht
  | cons c t' ih =>
    have hcn : c ≠ '\n' := htn c (List.mem_cons_self _ _)
    simp only [List.cons_append, findLazySingle]
    rw [if_neg hcn]
    cases t' with
    | nil =>
      simp
    | cons c' t'' =>
      have hc' : c' ≠ d := htd c' (by simp)
      rw [if_neg (by
        intro h
        have : c' = d := by
          have := congrArg (fun l => l.head?) h
          simpa using this
        exact hc' this)]
      have ih' := ih (by simp) (fun x hx => htn x (List.mem_cons_of_mem _ hx))
        (fun x hx => htd x (List.mem_cons_of_mem _ hx))
      simp only [List.append_eq]
      rw [ih']

/-- The single-delimiter replacement passes over delimiter-free text. -/
theorem singleRep_skip (d : Char) (o cl : Str) (a : Str)
    (ha : ∀ c ∈ a, c ≠ d) :
    ∀ b, singleRep d o cl (a ++ b) = a ++ singleRep d o cl b := by
  induction a with
  | nil => intro b; simp
  | cons c a' ih =>
    intro b
    have hc : c ≠ d := ha c (List.mem_cons_self _ _)
    simp only [List.cons_append]
    rw [singleRep]
    rw [if_neg hc]
    rw [ih (fun x hx => ha x (List.mem_cons_of_mem _ hx)) b]

/-- The single-delimiter replacement is the identity on delimiter-free
text. -/
theorem singleRep_id (d : Char) (o cl : Str) (s : Str)
    (hs : ∀ c ∈ s, c ≠ d) : singleRep d o cl s = s := by
  have := singleRep_skip d o cl s hs []
  simpa [singleRep] using this

/-- The single-delimiter replacement converts one well-delimited
occurrence. -/
theorem singleRep_extract (d : Char) (o cl : Str) (a t b : Str)
    (ha : ∀ c ∈ a, c ≠ d) (ht : t ≠ []) (htn : ∀ c ∈ t, c ≠ '\n')
    (htd : ∀ c ∈ t, c ≠ d) (hb : ∀ c ∈ b, c ≠ d) :
    singleRep d o cl (a ++ d :: (t ++ d :: b)) = a ++ o ++ t ++ cl ++ b := by
  rw [singleRep_skip d o cl a ha]
  rw [singleRep]
  rw [if_pos rfl]
  have hfind := findLazySingle_extract d t b ht htn htd
  split
  · rename_i t' r' heq
    rw [hfind] at heq
    obtain ⟨rfl, rfl⟩ : t = t' ∧ b = r' := by
      have := Option.some.inj heq
      exact ⟨congrArg Prod.fst this, congrArg Prod.snd this⟩
    rw [singleRep_id d o cl b hb]
    simp [List.append_assoc]
  · rename_i heq
    rw [hfind] at heq
    exact absurd heq (by simp)

/-- C7: in `markdownToHtml` the `__(.+?)__` strong substitution runs
before the `_(.+?)_` emphasis substitution.  For a line fragment whose only
underscores are one `__text__` occurrence, the chain produces
`<strong>text</strong>` and no `<em>`; a remaining single-underscore pair
`_text_` is converted to `<em>text</em>` (the strong pass leaves it
alone). -/
theorem C7_strong_then_em (a t b : Str)
    (ha : ∀ c ∈ a, c ≠ '_') (ht : t ≠ []) (htn : ∀ c ∈ t, c ≠ '\n')
    (htd : ∀ c ∈ t, c ≠ '_') (hb : ∀ c ∈ b, c ≠ '_') :
    singleRep '_' (str "<em>") (str "</em>")
        (doubleRep '_' (str "<strong>") (str "</strong>")
          (a ++ '_' :: '_' :: (t ++ '_' :: '_' :: b)))
      = a ++ str "<strong>" ++ t ++ str "</strong>" ++ b ∧
    singleRep '_' (str "<em>") (str "</em>")
        (doubleRep '_' (str "<strong>") (str "</strong>")
          (a ++ '_' :: (t ++ '_' :: b)))
      = a ++ str "<em>" ++ t ++ str "</em>" ++ b := by
  constructor
  · rw [doubleRep_extract '_' (str "<strong>") (str "</strong>") a t b ha ht htn htd hb]
    apply singleRep_id
    intro c hc
    simp only [List.append_assoc, List.mem_append] at hc
    rcases hc with hc | hc | hc | hc | hc
    · exact ha c hc
    · revert c
      decide
    · exact htd c hc
    · revert c
      decide
    · exact hb c hc
  · rw [doubleRep_single_untouched '_' (str "<strong>") (str "</strong>") a t b ha ht htd hb]
    exact singleRep_extract '_' (str "<em>") (str "</em>") a t b ha ht htn htd hb

theorem C7_strong_then_em_witness :
    ((∀ c ∈ str "see ", c ≠ '_') ∧ str "word" ≠ ([] : Str) ∧
     (∀ c ∈ str "word", c ≠ '\n') ∧ (∀ c ∈ str "word", c ≠ '_') ∧
     (∀ c ∈ str " end", c ≠ '_')) ∧
    (singleRep '_' (str "<em>") (str "</em>")
        (doubleRep '_' (str "<strong>") (str "</strong>")
          (str "see " ++ '_' :: '_' :: (str "word" ++ '_' :: '_' :: str " end")))
      = str "see " ++ str "<strong>" ++ str "word" ++ str "</strong>" ++ str " end" ∧
     singleRep '_' (str "<em>") (str "</em>")
        (doubleRep '_' (str "<strong>") (str "</strong>")
          (str "see " ++ '_' :: (str "word" ++ '_' :: str " end")))
      = str "see " ++ str "<em>" ++ str "word" ++ str "</em>" ++ str " end") :=
  ⟨⟨by decide, by decide, by decide, by decide, by decide⟩,
   C7_strong_then_em (str "see ") (str "word") (str " end")
     (by decide) (by decide) (by decide) (by decide) (by decide)⟩

/-! ## C8: only inline-style links become anchors -/

/-- A link match requires a literal `](`; without any `(` in the text
there is no match. -/
theorem linkMatch_none (rest : Str) (h : ∀ c ∈ rest, c ≠ '(') :
    linkMatch rest = none := by
  simp only [linkMatch]
  split
  · rfl
  · split
    · rename_i h2
      exfalso
      have hmem : '(' ∈ (rest.drop (rest.takeWhile (· ≠ ']')).length).take 2 := by
        rw [h2]
        decide
      exact h '(' (List.drop_subset _ _ (List.take_subset _ _ hmem)) rfl
    · rfl

/-- The link pass is the identity on strings with no `(`, in particular on
reference-style link uses and reference definition lines. -/
theorem linkRep_id (s : Str) (h : ∀ c ∈ s, c ≠ '(') : linkRep s = s := by
  induction s with
  | nil => simp [linkRep]
  | cons c rest ih =>
    have htail := fun x hx => h x (List.mem_cons_of_mem _ hx)
    rw [linkRep]
    by_cases hc : c = '['
    · subst hc
      rw [if_pos rfl]
      split
      · rename_i l u r' heq
        rw [linkMatch_none rest htail] at heq
        exact absurd heq (by simp)
      · exact congrArg _ (ih htail)
    · rw [if_neg hc]
      exact congrArg _ (ih htail)

theorem takeWhile_append_stop (p : Char → Bool) :
    ∀ (xs : List Char) (y : Char) (ys : List Char),
      (∀ x ∈ xs, p x = true) → p y = false →
      (xs ++ y :: ys).takeWhile p = xs := by
  intro xs
  induction xs with
  | nil =>
    intro y ys h hy
    simp [List.takeWhile_cons, hy]
  | cons x xs ih =>
    intro y ys h hy
    simp only [List.cons_append, List.takeWhile_cons, h x (List.mem_cons_self _ _),
      if_true]
    rw [ih y ys (fun u hu => h u (List.mem_cons_of_mem _ hu)) hy]

/-- The matcher accepts exactly the inline-link shape. -/
theorem linkMatch_exact (label url : Str) (hl : label ≠ [])
    (hlb : ∀ c ∈ label, c ≠ ']') (hu : url ≠ []) (hup : ∀ c ∈ url, c ≠ ')') :
    linkMatch (label ++ ']' :: '(' :: (url ++ [')'])) = some (label, url, []) := by
  have ht1 : (label ++ ']' :: '(' :: (url ++ [')'])).takeWhile (· ≠ ']') = label :=
    takeWhile_append_stop _ label ']' ('(' :: (url ++ [')']))
      (fun x hx => by simpa using hlb x hx) (by simp)
  have hd1 : (label ++ ']' :: '(' :: (url ++ [')'])).drop label.length
      = ']' :: '(' :: (url ++ [')']) := List.drop_left _ _
  have ht2 : (url ++ [')']).takeWhile (· ≠ ')') = url := by
    have := takeWhile_append_stop (fun c => decide (c ≠ ')')) url ')' []
      (fun x hx => by simpa using hup x hx) (by simp)
    simpa using this
  have hd2 : (url ++ [')']).drop url.length = [')'] := List.drop_left _ _
  simp only [linkMatch, ht1, hd1]
  rw [if_neg (by simpa using hl)]
  rw [if_pos (by rfl)]
  simp only [List.drop_succ_cons, List.drop_zero, ht2, hd2]
  rw [if_neg (by simpa using hu)]
  rw [if_pos (by rfl)]

/-- The link pass converts an inline link into an anchor. -/
theorem linkRep_inline (label url : Str) (hl : label ≠ [])
    (hlb : ∀ c ∈ label, c ≠ ']') (hu : url ≠ []) (hup : ∀ c ∈ url, c ≠ ')') :
    linkRep ('[' :: (label ++ ']' :: '(' :: (url ++ [')'])))
      = str "<a href=\"" ++ url ++ str "\">" ++ label ++ str "</a>" := by
  rw [linkRep]
  rw [if_pos rfl]
  split
  · rename_i l u r' heq
    rw [linkMatch_exact label url hl hlb hu hup] at heq
    obtain ⟨h1, h2, h3⟩ : label = l ∧ url = u ∧ [] = r' := by
      have := Option.some.inj heq
      exact ⟨congrArg Prod.fst this, congrArg (fun p => p.2.1) this,
        congrArg (fun p => p.2.2) this⟩
    subst h1; subst h2; subst h3
    rw [show linkRep [] = [] by rw [linkRep]]
    simp [List.append_assoc]
  · rename_i heq
    rw [linkMatch_exact label url hl hlb hu hup] at heq
    exact absurd heq (by simp)

theorem forall_mem_append {P : Char → Prop} {a b : Str}
    (ha : ∀ c ∈ a, P c) (hb : ∀ c ∈ b, P c) : ∀ c ∈ a ++ b, P c := by
  intro c hc
  rcases List.mem_append.1 hc with h | h
  exacts [ha c h, hb c h]

theorem numStr_digit : ∀ n, ∀ c ∈ numStr n, c ∈ str "0123456789" := by
  intro n
  induction n using Nat.strong_induction_on with
  | _ n ih =>
    rw [numStr]
    split
    · rename_i h
      intro c hc
      rcases List.mem_singleton.1 hc with rfl
      interval_cases n <;> decide
    · rename_i h
      intro c hc
      rcases List.mem_append.1 hc with h1 | h1
      · exact ih (n / 10) (Nat.div_lt_self (by omega) (by omega)) c h1
      · rcases List.mem_singleton.1 h1 with rfl
        have hlt : n % 10 < 10 := Nat.mod_lt _ (by norm_num)
        set m := n % 10 with hm
        interval_cases m <;> decide

/-- The generator's reference-link text contains no `(` and no `<`. -/
theorem refLinkText_chars (i : ℕ) : ∀ c ∈ refLinkText i, c ≠ '(' ∧ c ≠ '<' := by
  have hdig : ∀ x ∈ str "0123456789", x ≠ '(' ∧ x ≠ '<' := by decide
  simp only [refLinkText]
  repeat' apply forall_mem_append
  all_goals
    first
      | decide
      | (intro c hc; exact hdig c (numStr_digit _ c hc))

/-- C8: the converter's link pass (step 12 of `markdownToHtml`) turns only
inline-style links `[label](url)` into anchors; it is the identity on
parenthesis-free text, in particular on the generator's reference-style
link sentence and definition line, whose pass output therefore contains no
`<a href` substring. -/
theorem C8_inline_links_only :
    (∀ s : Str, (∀ c ∈ s, c ≠ '(') → linkRep s = s) ∧
    (∀ label url : Str, label ≠ [] → (∀ c ∈ label, c ≠ ']') → url ≠ [] →
      (∀ c ∈ url, c ≠ ')') →
      linkRep ('[' :: (label ++ ']' :: '(' :: (url ++ [')'])))
        = str "<a href=\"" ++ url ++ str "\">" ++ label ++ str "</a>") ∧
    linkRep (refLinkText 0) = refLinkText 0 ∧
    ¬ str "<a href" <:+: linkRep (refLinkText 0) := by
  have hid : linkRep (refLinkText 0) = refLinkText 0 :=
    linkRep_id _ (fun c hc => (refLinkText_chars 0 c hc).1)
  refine ⟨linkRep_id, linkRep_inline, hid, ?_⟩
  rw [hid]
  intro h
  exact (refLinkText_chars 0 '<' (h.subset (by decide))).2 rfl

theorem C8_inline_links_only_witness :
    (linkRep (str "[1]: https://example.com/ref1")
      = str "[1]: https://example.com/ref1") ∧
    (linkRep ('[' :: (str "inline link" ++ ']' :: '(' ::
        (str "https://example.com/page1" ++ [')'])))
      = str "<a href=\"" ++ str "https://example.com/page1" ++ str "\">"
        ++ str "inline link" ++ str "</a>") :=
  ⟨C8_inline_links_only.1 _ (by decide),
   C8_inline_links_only.2.1 _ _ (by decide) (by decide) (by decide) (by decide)⟩

end Ipsumify
